import Mathlib

set_option autoImplicit false
set_option maxHeartbeats 1000000

namespace BioParse

/-
Shallow embedding of the bioparser-pro core: the text-normalization layer
(src/services/parsers/textNormalization.ts), the MEDLINE / free-text /
tab-delimited / XML parsers (src/services/parsers/pubmedTxtParser.ts,
src/services/parsers/europepmcParser.ts) and the author-email scoring engine.
JS strings are modelled as lists of Unicode scalar values.
-/

abbrev Str := List Char

def chr (n : Nat) : Char := Char.ofNat n

/-- The character class of the JS regex token \s together with the set trimmed
by String.prototype.trim (the two sets coincide in JS). -/
def isJsWs (c : Char) : Bool :=
  let n := c.toNat
  n == 9 || n == 10 || n == 11 || n == 12 || n == 13 || n == 32 ||
  n == 0xA0 || n == 0x1680 || (0x2000 ≤ n && n ≤ 0x200A) ||
  n == 0x2028 || n == 0x2029 || n == 0x202F || n == 0x205F ||
  n == 0x3000 || n == 0xFEFF

/-- JS line terminators: the characters not matched by the regex token `.` . -/
def isLineTerm (c : Char) : Bool :=
  let n := c.toNat
  n == 10 || n == 13 || n == 0x2028 || n == 0x2029

def isUpperAZ (c : Char) : Bool := 65 ≤ c.toNat && c.toNat ≤ 90

def isLowerAZ (c : Char) : Bool := 97 ≤ c.toNat && c.toNat ≤ 122

def isAsciiAlpha (c : Char) : Bool := isUpperAZ c || isLowerAZ c

def isDigitC (c : Char) : Bool := 48 ≤ c.toNat && c.toNat ≤ 57

def isAlnumC (c : Char) : Bool := isAsciiAlpha c || isDigitC c

def isHexDigitC (c : Char) : Bool :=
  isDigitC c || (97 ≤ c.toNat && c.toNat ≤ 102) || (65 ≤ c.toNat && c.toNat ≤ 70)

/-- Model of JS String.prototype.toLowerCase, character by character.  It is
exact on the ASCII range, which covers every string this development folds
(email regex matches and the ASCII marker searches of the source). -/
def lowerChar (c : Char) : Char :=
  if 65 ≤ c.toNat && c.toNat ≤ 90 then chr (c.toNat + 32) else c

def lowerStr (s : Str) : Str := s.map lowerChar

/-- Removal of the maximal trailing whitespace run. -/
def dropTrailingWs : Str → Str
  | [] => []
  | c :: rest =>
    let r := dropTrailingWs rest
    if r.isEmpty && isJsWs c then [] else c :: r

/-- JS String.prototype.trim: drop leading and trailing whitespace. -/
def trimList (s : Str) : Str := dropTrailingWs (s.dropWhile isJsWs)

mutual

/-- JS value.replace of every run matching the whitespace regex by a single
space (the WHITESPACE_REGEX collapse step). -/
def collapseWs : Str → Str
  | [] => []
  | c :: rest => if isJsWs c then ' ' :: skipWsThen rest else c :: collapseWs rest

/-- Helper of collapseWs: consume the remainder of a whitespace run. -/
def skipWsThen : Str → Str
  | [] => []
  | c :: rest => if isJsWs c then skipWsThen rest else c :: collapseWs rest

end

/-- Substring test, as JS String.prototype.includes. -/
def containsSub (hay pat : Str) : Bool :=
  match hay with
  | [] => pat.isEmpty
  | _ :: t => pat.isPrefixOf hay || containsSub t pat

/-- First index at which pat occurs in hay, as JS indexOf. -/
def indexOfSubAux (hay pat : Str) (i : Nat) : Option Nat :=
  match hay with
  | [] => if pat.isEmpty then some i else none
  | _ :: t => if pat.isPrefixOf hay then some i else indexOfSubAux t pat (i + 1)

def indexOfSub (hay pat : Str) : Option Nat := indexOfSubAux hay pat 0

/-- Last index at which pat occurs in hay, as JS lastIndexOf. -/
def lastIndexOfSubAux (hay pat : Str) (i : Nat) (best : Option Nat) : Option Nat :=
  match hay with
  | [] => if pat.isEmpty then some i else best
  | _ :: t =>
    if pat.isPrefixOf hay then lastIndexOfSubAux t pat (i + 1) (some i)
    else lastIndexOfSubAux t pat (i + 1) best

def lastIndexOfSub (hay pat : Str) : Option Nat := lastIndexOfSubAux hay pat 0 none

/-- Tail of the WHATWG UTF-8 decoder with replacement-character error mode, the
behaviour of the host TextDecoder used by repairLikelyMojibake.  On an invalid
continuation byte a U+FFFD is emitted and the offending byte is reprocessed. -/
def utf8DecodeAux : Nat → List Nat → Str
  | 0, _ => []
  | _, [] => []
  | fuel + 1, b :: rest =>
    if b ≤ 0x7F then chr b :: utf8DecodeAux fuel rest
    else if 0xC2 ≤ b && b ≤ 0xDF then
      match rest with
      | [] => [chr 0xFFFD]
      | c1 :: r1 =>
        if 0x80 ≤ c1 && c1 ≤ 0xBF then
          chr ((b - 0xC0) * 64 + (c1 - 0x80)) :: utf8DecodeAux fuel r1
        else chr 0xFFFD :: utf8DecodeAux fuel (c1 :: r1)
    else if 0xE0 ≤ b && b ≤ 0xEF then
      match rest with
      | [] => [chr 0xFFFD]
      | c1 :: r1 =>
        let lo1 := if b == 0xE0 then 0xA0 else 0x80
        let hi1 := if b == 0xED then 0x9F else 0xBF
        if lo1 ≤ c1 && c1 ≤ hi1 then
          match r1 with
          | [] => [chr 0xFFFD]
          | c2 :: r2 =>
            if 0x80 ≤ c2 && c2 ≤ 0xBF then
              chr ((b - 0xE0) * 4096 + (c1 - 0x80) * 64 + (c2 - 0x80)) ::
                utf8DecodeAux fuel r2
            else chr 0xFFFD :: utf8DecodeAux fuel (c2 :: r2)
        else chr 0xFFFD :: utf8DecodeAux fuel (c1 :: r1)
    else if 0xF0 ≤ b && b ≤ 0xF4 then
      match rest with
      | [] => [chr 0xFFFD]
      | c1 :: r1 =>
        let lo1 := if b == 0xF0 then 0x90 else 0x80
        let hi1 := if b == 0xF4 then 0x8F else 0xBF
        if lo1 ≤ c1 && c1 ≤ hi1 then
          match r1 with
          | [] => [chr 0xFFFD]
          | c2 :: r2 =>
            if 0x80 ≤ c2 && c2 ≤ 0xBF then
              match r2 with
              | [] => [chr 0xFFFD]
              | c3 :: r3 =>
                if 0x80 ≤ c3 && c3 ≤ 0xBF then
                  chr ((b - 0xF0) * 0x40000 + (c1 - 0x80) * 4096 +
                      (c2 - 0x80) * 64 + (c3 - 0x80)) :: utf8DecodeAux fuel r3
                else chr 0xFFFD :: utf8DecodeAux fuel (c3 :: r3)
            else chr 0xFFFD :: utf8DecodeAux fuel (c2 :: r2)
        else chr 0xFFFD :: utf8DecodeAux fuel (c1 :: r1)
    else chr 0xFFFD :: utf8DecodeAux fuel rest

def utf8Decode (bytes : List Nat) : Str := utf8DecodeAux (bytes.length + 1) bytes

/-- mojibakeScore of textNormalization.ts: replacement characters weigh 4,
residual artifact lead characters weigh 1. -/
def mojibakeScore (s : Str) : Nat :=
  4 * s.countP (fun c => c.toNat == 0xFFFD) +
    s.countP (fun c => c.toNat == 0xC3 || c.toNat == 0xC2 || c.toNat == 0xE2)

/-- Test of LIKELY_MOJIBAKE_REGEX: an artifact lead character followed by any
character the regex token `.` accepts. -/
def likelyMojibake : Str → Bool
  | [] => false
  | [_] => false
  | a :: b :: rest =>
    ((a.toNat == 0xC3 || a.toNat == 0xC2 || a.toNat == 0xE2) && !isLineTerm b) ||
      likelyMojibake (b :: rest)

/-- repairLikelyMojibake of textNormalization.ts. -/
def repairLikelyMojibake (s : Str) : Str :=
  if !likelyMojibake s then s
  else if s.any (fun c => 255 < c.toNat) then s
  else
    let repaired := utf8Decode (s.map Char.toNat)
    if mojibakeScore repaired < mojibakeScore s then repaired else s

/-- Test of ENTITY_REGEX at the start of the string. -/
def entityMatchHere (s : Str) : Bool :=
  match s with
  | '&' :: '#' :: 'x' :: r3 =>
    let ds := r3.takeWhile isHexDigitC
    !ds.isEmpty && (r3.drop ds.length).headD ' ' == ';'
  | '&' :: '#' :: r2 =>
    let ds := r2.takeWhile isDigitC
    !ds.isEmpty && (r2.drop ds.length).headD ' ' == ';'
  | '&' :: a :: r2 =>
    isAsciiAlpha a &&
      (let ds := r2.takeWhile isAlnumC
       !ds.isEmpty && (r2.drop ds.length).headD ' ' == ';')
  | _ => false

/-- Test of ENTITY_REGEX anywhere in the string. -/
def entityTest : Str → Bool
  | [] => false
  | c :: rest => entityMatchHere (c :: rest) || entityTest rest

/-- Modelled from the host HTML entity decoder (the textarea facility of
src/services/parsers/textNormalization.ts, an external collaborator per the
spec): the named character references exercised by this development, with
their legacy semicolon-free forms, tried longest first. -/
def namedEntities : List (Str × Char) :=
  [("amp;".toList, '&'), ("lt;".toList, '<'), ("gt;".toList, '>'),
   ("quot;".toList, '"'), ("apos;".toList, chr 39), ("nbsp;".toList, chr 0xA0),
   ("amp".toList, '&'), ("lt".toList, '<'), ("gt".toList, '>'),
   ("quot".toList, '"'), ("nbsp".toList, chr 0xA0)]

def findNamedEntity (s : Str) : Option (Str × Char) :=
  namedEntities.find? (fun p => p.1.isPrefixOf s)

/-- Remapping of a numeric character reference per the HTML standard: NUL,
out-of-range and surrogate code points become U+FFFD, and the C1 range is
mapped through the windows-1252 table. -/
def numRefChar (cp : Nat) : Char :=
  if cp == 0 then chr 0xFFFD
  else if 0x10FFFF < cp then chr 0xFFFD
  else if 0xD800 ≤ cp && cp ≤ 0xDFFF then chr 0xFFFD
  else
    match [(0x80, 0x20AC), (0x82, 0x201A), (0x83, 0x0192), (0x84, 0x201E),
           (0x85, 0x2026), (0x86, 0x2020), (0x87, 0x2021), (0x88, 0x02C6),
           (0x89, 0x2030), (0x8A, 0x0160), (0x8B, 0x2039), (0x8C, 0x0152),
           (0x8E, 0x017D), (0x91, 0x2018), (0x92, 0x2019), (0x93, 0x201C),
           (0x94, 0x201D), (0x95, 0x2022), (0x96, 0x2013), (0x97, 0x2014),
           (0x98, 0x02DC), (0x99, 0x2122), (0x9A, 0x0161), (0x9B, 0x203A),
           (0x9C, 0x0153), (0x9E, 0x017E), (0x9F, 0x0178)].find?
          (fun p => p.1 == cp) with
    | some p => chr p.2
    | none => chr cp

def natOfDigits (ds : Str) : Nat :=
  ds.foldl (fun acc c => 10 * acc + (c.toNat - 48)) 0

def natOfHexDigits (ds : Str) : Nat :=
  ds.foldl
    (fun acc c =>
      16 * acc +
        (if isDigitC c then c.toNat - 48
         else if 97 ≤ c.toNat then c.toNat - 87 else c.toNat - 55))
    0

/-- Character-reference scan of the whole string, as the host textarea
decoder performs it. -/
def decodeRefsAux : Nat → Str → Str
  | 0, s => s
  | _, [] => []
  | fuel + 1, '&' :: rest =>
    match rest with
    | '#' :: 'x' :: r3 =>
      let ds := r3.takeWhile isHexDigitC
      if ds.isEmpty then '&' :: decodeRefsAux fuel rest
      else
        let r4 := r3.drop ds.length
        let r5 := if r4.headD ' ' == ';' then r4.drop 1 else r4
        numRefChar (natOfHexDigits ds) :: decodeRefsAux fuel r5
    | '#' :: r2 =>
      let ds := r2.takeWhile isDigitC
      if ds.isEmpty then '&' :: decodeRefsAux fuel rest
      else
        let r4 := r2.drop ds.length
        let r5 := if r4.headD ' ' == ';' then r4.drop 1 else r4
        numRefChar (natOfDigits ds) :: decodeRefsAux fuel r5
    | _ =>
      match findNamedEntity rest with
      | some p => p.2 :: decodeRefsAux fuel (rest.drop p.1.length)
      | none => '&' :: decodeRefsAux fuel rest
  | fuel + 1, c :: rest => c :: decodeRefsAux fuel rest

/-- decodeEntities of textNormalization.ts (the document-present path: the
parsers run in a browser host). -/
def decodeEntities (s : Str) : Str :=
  if !entityTest s then s else decodeRefsAux s.length s

/-- Restriction of the host String.prototype.normalize with NFC to
NFC-stable strings: on a string whose characters have no canonical
decomposition and do not combine (every string this file evaluates
concretely is pure ASCII and hence of this kind) NFC is the identity, and
only that restriction is modelled here.  Composition of combining sequences
is NOT modelled; every theorem about idempotence of the normalization
pipeline therefore abstracts the NFC stage through
normalizeExtractedTextWith and assumes of it only what the Unicode standard
guarantees of every conforming implementation, that pure-ASCII strings are
fixed. -/
def nfcNormalize (s : Str) : Str := s

/-- Pure-ASCII test: the character property under which every conforming
NFC implementation is the identity. -/
def allAscii (s : Str) : Bool := s.all (fun c => c.toNat < 128)

def isZeroWidth (c : Char) : Bool :=
  let n := c.toNat
  n == 0x200B || n == 0x200C || n == 0x200D || n == 0x2060 || n == 0xFEFF

def isCtrlStrip (c : Char) : Bool :=
  let n := c.toNat
  n ≤ 8 || n == 11 || n == 12 || (14 ≤ n && n ≤ 31) || n == 127

/-- normalizeExtractedText of textNormalization.ts: mojibake repair, entity
decoding, NFC, zero-width strip, control strip, whitespace collapse, trim. -/
def normalizeExtractedText (s : Str) : Str :=
  let repaired := repairLikelyMojibake s
  let decoded := decodeEntities repaired
  trimList (collapseWs
    (((nfcNormalize decoded).filter (fun c => !isZeroWidth c)).filter
      (fun c => !isCtrlStrip c)))

/-- normalizeExtractedText with its NFC stage abstracted: the pipeline of
textNormalization.ts over an arbitrary host NFC implementation, of which the
idempotence theorem assumes only that it fixes pure-ASCII strings.
normalizeExtractedText is the instance at the NFC-stable restriction. -/
def normalizeExtractedTextWith (nfc : Str → Str) (s : Str) : Str :=
  let repaired := repairLikelyMojibake s
  let decoded := decodeEntities repaired
  trimList (collapseWs
    (((nfc decoded).filter (fun c => !isZeroWidth c)).filter
      (fun c => !isCtrlStrip c)))

/-- A minimal non-identity NFC model: it composes e followed by U+0301 into
the precomposed U+00E9 and fixes everything else, so it fixes pure-ASCII
strings; it instantiates the abstract idempotence theorem in its witness with
a genuinely composing normalizer. -/
def nfcDemo : Str → Str
  | [] => []
  | [c] => [c]
  | c1 :: c2 :: rest =>
    if c1 == 'e' && c2.toNat == 0x301 then chr 0xE9 :: nfcDemo rest
    else c1 :: nfcDemo (c2 :: rest)

/-- Removal of a trailing full stop with trailing whitespace, the replace of
trimTrailingFullStop. -/
def stripDotEnd (s : Str) : Str :=
  let rev := s.reverse
  let ws := rev.takeWhile isJsWs
  match rev.drop ws.length with
  | '.' :: r => r.reverse
  | _ => s

/-- trimTrailingFullStop of textNormalization.ts. -/
def trimTrailingFullStop (s : Str) : Str :=
  trimList (stripDotEnd (normalizeExtractedText s))

/-- Characterization of collapsed whitespace: every whitespace character is a
single space followed by a non-whitespace character or the end. -/
def wellCollapsed : Str → Bool
  | [] => true
  | c :: rest =>
    (if isJsWs c then c == ' ' && !isJsWs (rest.headD 'a') else true) &&
      wellCollapsed rest

/-- Splitting on a single character, as JS String.prototype.split. -/
def splitOnCAux (sep : Char) (cur : Str) : Str → List Str
  | [] => [cur.reverse]
  | c :: rest =>
    if c == sep then cur.reverse :: splitOnCAux sep [] rest
    else splitOnCAux sep (c :: cur) rest

def splitOnC (sep : Char) (s : Str) : List Str := splitOnCAux sep [] s

/-- Join with a single-character separator, as JS Array.prototype.join. -/
def joinSep (sep : Char) : List Str → Str
  | [] => []
  | [x] => x
  | x :: y :: rest => x ++ sep :: joinSep sep (y :: rest)

/-- Array.from of new Set: deduplication keeping first occurrences. -/
def dedupeAux (seen : List Str) : List Str → List Str
  | [] => []
  | x :: rest =>
    if x ∈ seen then dedupeAux seen rest else x :: dedupeAux (x :: seen) rest

def dedupeList (l : List Str) : List Str := dedupeAux [] l

/-! The EMAIL_REGEX scanner.  The JS pattern is
[a-zA-Z0-9._%+-]+@[a-zA-Z0-9.-]+\.[a-zA-Z]\x7b2,\x7d with the global flag;
the scanner below reproduces the leftmost-greedy backtracking semantics of
that specific pattern. -/

def isLocalChar (c : Char) : Bool :=
  isAlnumC c || c == '.' || c == '_' || c == '%' || c == '+' || c == '-'

def isDomainChar (c : Char) : Bool := isAlnumC c || c == '.' || c == '-'

/-- Attempt the domain split dom[0..k) ++ "." ++ alpha run (length at least 2)
at position k; the caller searches k from high to low, matching the greedy
backtracking of the domain part of the pattern. -/
def domSplitAt (dom : Str) (k : Nat) : Option (Str × Str) :=
  match dom.drop k with
  | '.' :: after =>
    let run := after.takeWhile isAsciiAlpha
    if 2 ≤ run.length then some (dom.take k ++ '.' :: run, after.drop run.length)
    else none
  | _ => none

def bestDomainSplit (dom : Str) : Nat → Option (Str × Str)
  | 0 => none
  | k + 1 =>
    match domSplitAt dom (k + 1) with
    | some r => some r
    | none => bestDomainSplit dom k

/-- One match attempt of EMAIL_REGEX anchored at the start of s; returns the
matched text and the remainder after the match. -/
def tryEmailAt (s : Str) : Option (Str × Str) :=
  let loc := s.takeWhile isLocalChar
  if loc.isEmpty then none
  else
    match s.drop loc.length with
    | '@' :: rest2 =>
      let dom := rest2.takeWhile isDomainChar
      match bestDomainSplit dom (dom.length - 1) with
      | some (dpart, leftover) =>
        some (loc ++ '@' :: dpart, leftover ++ rest2.drop dom.length)
      | none => none
    | _ => none

def extractEmailsAux : Nat → Str → List Str
  | 0, _ => []
  | _, [] => []
  | fuel + 1, c :: rest =>
    match tryEmailAt (c :: rest) with
    | some (m, leftover) => m :: extractEmailsAux fuel leftover
    | none => extractEmailsAux fuel rest

/-- extractEmails of pubmedTxtParser.ts: all EMAIL_REGEX matches in order. -/
def extractEmails (s : Str) : List Str := extractEmailsAux s.length s

/-- The replace of a single trailing full stop, regex dot-dollar. -/
def dropDotEnd (s : Str) : Str :=
  match s.reverse with
  | '.' :: r => r.reverse
  | _ => s

/-- formatAuthorName of pubmedTxtParser.ts: swap "Last, Given" into
"Given Last" after normalization. -/
def formatAuthorName (raw : Str) : Str :=
  let cleaned := normalizeExtractedText (dropDotEnd raw)
  match cleaned.findIdx? (fun c => c == ',') with
  | some i =>
    let last := trimList (cleaned.take i)
    let rest := trimList (cleaned.drop (i + 1))
    if !last.isEmpty && !rest.isEmpty then
      normalizeExtractedText (rest ++ ' ' :: last)
    else cleaned
  | none => cleaned

/-- normalizeForMatch of pubmedTxtParser.ts. -/
def normalizeForMatch (s : Str) : Str :=
  (lowerStr s).filter (fun c => isLowerAZ c || isDigitC c)

/-- Maximal lowercase-alphabetic runs, the split of getAlphaTokens. -/
def alphaRunsAux (cur : Str) : Str → List Str
  | [] => if cur.isEmpty then [] else [cur.reverse]
  | c :: rest =>
    if isLowerAZ c then alphaRunsAux (c :: cur) rest
    else if cur.isEmpty then alphaRunsAux [] rest
    else cur.reverse :: alphaRunsAux [] rest

/-- getAlphaTokens of pubmedTxtParser.ts. -/
def getAlphaTokens (s : Str) : List Str :=
  ((alphaRunsAux [] (lowerStr s)).map trimList).filter (fun t => !t.isEmpty)

/-- getEmailLocalTokens of pubmedTxtParser.ts. -/
def getEmailLocalTokens (email : Str) : List Str :=
  (getAlphaTokens ((splitOnC '@' email).headD [])).map normalizeForMatch

/-- isNonAuthorContactEmail of pubmedTxtParser.ts. -/
def isNonAuthorContactEmail (email : Str) : Bool :=
  let lower := lowerStr email
  let parts := splitOnC '@' lower
  let localPart := parts.headD []
  let domain := (parts.drop 1).headD []
  if ("benthamscience.net".toList).isSuffixOf domain then true
  else if containsSub localPart ("journals.permissions".toList) then true
  else
    containsSub localPart ("permission".toList) ||
    containsSub localPart ("permissions".toList) ||
    containsSub localPart ("reprint".toList) ||
    containsSub localPart ("reprints".toList) ||
    containsSub localPart ("membership".toList) ||
    containsSub localPart ("epub".toList)

structure NameSignals where
  lastName : Str
  givenNames : List Str
  givenInitials : Str
  allInitials : Str

/-- getAuthorNameSignals of pubmedTxtParser.ts. -/
def getAuthorNameSignals (authorName : Str) : NameSignals :=
  let parts :=
    ((splitOnC ' ' authorName).map normalizeForMatch).filter (fun p => !p.isEmpty)
  { lastName := parts.getLastD []
    givenNames := parts.dropLast
    givenInitials := parts.dropLast.filterMap (fun p => p.head?)
    allInitials := parts.filterMap (fun p => p.head?) }

structure ShortSignals where
  compact : Str
  initials : Str
  initialBeforeSurname : Str
  surnameBeforeInitial : Str

/-- getShortNameSignals of pubmedTxtParser.ts. -/
def getShortNameSignals (shortName : Str) : ShortSignals :=
  let alphaTokens :=
    ((getAlphaTokens shortName).map normalizeForMatch).filter (fun t => !t.isEmpty)
  let compact := alphaTokens.flatten
  let surname := alphaTokens.headD []
  let initials := if 1 < alphaTokens.length then (alphaTokens.drop 1).flatten else []
  { compact := compact
    initials := initials
    initialBeforeSurname :=
      if !initials.isEmpty && !surname.isEmpty then initials ++ surname else []
    surnameBeforeInitial :=
      if !initials.isEmpty && !surname.isEmpty then surname ++ initials else [] }

/-- scoreAuthorEmailMatch of pubmedTxtParser.ts: the maximum over the rule
list, folded over the email local-part token decompositions and the short
name forms. -/
def scoreAuthorEmailMatch (email : Str) (authorName : Str)
    (shortNames : List Str) : Nat :=
  let localPart := (splitOnC '@' email).headD []
  let localAlnum := normalizeForMatch localPart
  let localTokens := getEmailLocalTokens email
  let localAlphaTokens := getAlphaTokens localPart
  let sig := getAuthorNameSignals authorName
  let s1 := localTokens.foldl
    (fun score token =>
      if token.isEmpty then score
      else
        let score := if token = sig.lastName then max score 120 else score
        let score :=
          if !sig.lastName.isEmpty && sig.lastName.isPrefixOf token then
            max score 110 else score
        let score :=
          if !sig.lastName.isEmpty && sig.lastName.isSuffixOf token then
            max score 105 else score
        let score :=
          if !sig.lastName.isEmpty && token.isPrefixOf sig.lastName &&
              4 ≤ token.length then max score 95 else score
        let score :=
          if !sig.lastName.isEmpty && 4 ≤ sig.lastName.length &&
              containsSub token sig.lastName then max score 90 else score
        let score := if sig.givenNames.contains token then max score 85 else score
        let score :=
          if !sig.allInitials.isEmpty && token = sig.allInitials &&
              2 ≤ token.length then max score 108 else score
        let score :=
          if !sig.givenInitials.isEmpty && !sig.lastName.isEmpty &&
              token = sig.givenInitials ++ sig.lastName then
            max score 112 else score
        let score :=
          if !sig.givenInitials.isEmpty && !sig.lastName.isEmpty &&
              token = sig.lastName ++ sig.givenInitials then
            max score 110 else score
        let score :=
          if !sig.givenInitials.isEmpty && !sig.lastName.isEmpty &&
              1 ≤ sig.givenInitials.length &&
              token = sig.givenInitials.take 1 ++ sig.lastName then
            max score 111 else score
        score)
    0
  let s2 := localAlphaTokens.foldl
    (fun score tok =>
      let normalized := normalizeForMatch tok
      if normalized.isEmpty then score
      else
        let score :=
          if !sig.allInitials.isEmpty && normalized = sig.allInitials then
            max score 108 else score
        let score :=
          if !sig.lastName.isEmpty && sig.lastName.isPrefixOf normalized then
            max score 110 else score
        let score :=
          if !sig.lastName.isEmpty && sig.lastName.isSuffixOf normalized then
            max score 105 else score
        score)
    s1
  shortNames.foldl
    (fun score sn =>
      let ss := getShortNameSignals sn
      let score :=
        if !ss.compact.isEmpty && containsSub localAlnum ss.compact then
          max score 114 else score
      let score :=
        if !ss.initials.isEmpty && 2 ≤ ss.initials.length &&
            containsSub localAlnum ss.initials then max score 102 else score
      let score :=
        if !ss.initialBeforeSurname.isEmpty &&
            containsSub localAlnum ss.initialBeforeSurname then
          max score 116 else score
      let score :=
        if !ss.surnameBeforeInitial.isEmpty &&
            containsSub localAlnum ss.surnameBeforeInitial then
          max score 113 else score
      score)
    s2

/-- findAuthorMatch of pubmedTxtParser.ts: best positive-score author among
the still-unused pool. -/
def famStep (email : Str) (unusedAuthors : Option (List Str))
    (acc : Option Str × Int) (author : Str) : Option Str × Int :=
  if (match unusedAuthors with
      | some pool => decide (author ∈ pool)
      | none => true) then
    let score : Int := (scoreAuthorEmailMatch email author [] : Int)
    if acc.2 < score then (some author, score) else acc
  else acc

def findAuthorMatch (email : Str) (authors : List Str)
    (unusedAuthors : Option (List Str)) : Option Str :=
  let r := authors.foldl (famStep email unusedAuthors) (none, -1)
  if 0 < r.2 then r.1 else none

/-- ExtractedRecord without the id field; the id is supplied by the external
unique-identifier generator (crypto.randomUUID) and is modelled separately. -/
structure Rec where
  title : Str
  author : Str
  email : Str
  src : Str
deriving DecidableEq, Repr

structure ParserResult0 where
  records : List Rec
  totalProcessed : Nat
deriving DecidableEq, Repr

/-- The composite dedup key string title pipe author pipe email. -/
def recKey (t a e : Str) : Str := t ++ '|' :: a ++ '|' :: e

/-- The push pattern shared by all four parsers: push a record only when its
composite key is not yet in the dedup set, and record the key. -/
def pushUnique (t a e src : Str) (st : List Rec × List Str) :
    List Rec × List Str :=
  let k := recKey t a e
  if k ∈ st.2 then st else (st.1 ++ [⟨t, a, e, src⟩], k :: st.2)

/-- The per-email author selection of one iteration of the assignment loop
of buildRecords: the positive-score pool match, the positional fallback with
pool check, then the single-author and non-strict first-author defaults.
Returns the chosen author, if any, and the updated pool. -/
def buildStep (ca ce : List Str) (fb strict : Bool) (email : Str)
    (pool : List Str) : Option Str × List Str :=
  let matched := findAuthorMatch email ca (some pool)
  let step : Option Str × List Str :=
    match matched with
    | some a => if a ∈ pool then (some a, pool.erase a) else (some a, pool)
    | none =>
      if fb then
        let idx := ce.indexOf email
        match ca.get? idx with
        | some ia =>
          if !ia.isEmpty && ia ∈ pool then (some ia, pool.erase ia)
          else (none, pool)
        | none => (none, pool)
      else (none, pool)
  let author :=
    match step.1 with
    | some a => some a
    | none =>
      if ca.length = 1 then some (ca.headD [])
      else if !strict then some (ca.headD []) else none
  (author, step.2)

/-- The per-email assignment loop of buildRecords in pubmedTxtParser.ts. -/
def buildLoop (title src : Str) (ca ce : List Str) (fb strict : Bool) :
    List Str → List Str → List Rec × List Str → List Rec × List Str
  | [], _, st => st
  | email :: rest, pool, st =>
    let step := buildStep ca ce fb strict email pool
    let st2 :=
      match step.1 with
      | none => st
      | some a => pushUnique title a email src st
    buildLoop title src ca ce fb strict rest step.2 st2

/-- buildRecords of pubmedTxtParser.ts.  The uniqueKeys set is threaded
explicitly; the returned pair is the fresh rows and the grown key set. -/
def buildRecords (title : Str) (authors emails : List Str) (src : Str)
    (keys : List Str) (strictMatch : Bool) : List Rec × List Str :=
  let normalizedTitle := trimTrailingFullStop title
  let cleanedAuthors :=
    dedupeList ((authors.map formatAuthorName).filter (fun a => !a.isEmpty))
  let cleanedEmails :=
    dedupeList (((emails.map trimList).filter (fun e => !e.isEmpty)).filter
      (fun e => !isNonAuthorContactEmail e))
  if normalizedTitle.isEmpty || cleanedAuthors.isEmpty || cleanedEmails.isEmpty
  then ([], keys)
  else
    buildLoop normalizedTitle src cleanedAuthors cleanedEmails
      (cleanedEmails.length == cleanedAuthors.length) strictMatch
      cleanedEmails cleanedAuthors ([], keys)

/-- extractElectronicEmails of pubmedTxtParser.ts: per affiliation, the last
email after the last case-insensitive "electronic address" marker. -/
def extractElectronicEmails (affiliations : List Str) : List Str :=
  affiliations.foldl
    (fun acc aff =>
      match lastIndexOfSub (lowerStr aff) ("electronic address".toList) with
      | none => acc
      | some idx =>
        let ms := extractEmails (aff.drop idx)
        if ms.isEmpty then acc else acc ++ [ms.getLastD []])
    []

/-! The MEDLINE tagged-field parser. -/

structure MAuthor where
  name : Str
  shortNames : List Str
  affiliations : List Str
deriving DecidableEq, Repr

structure PAuthor where
  name : Str
  shortNames : List Str
  candidateEmails : List Str
deriving DecidableEq, Repr

/-- The per-author preparation step of parseMedline.flushRecord. -/
def prepareAuthor (a : MAuthor) : Option PAuthor :=
  let formattedName := formatAuthorName a.name
  if formattedName.isEmpty then none
  else
    let normalizedShortNames :=
      dedupeList ((a.shortNames.map normalizeExtractedText).filter
        (fun v => !v.isEmpty))
    let electronicEmails := extractElectronicEmails a.affiliations
    let affiliationEmails := extractEmails (joinSep ' ' a.affiliations)
    let candidateEmails :=
      dedupeList
        ((((if electronicEmails.isEmpty then affiliationEmails
            else electronicEmails).map
              (fun e => lowerStr (trimList e))).filter
            (fun e => !e.isEmpty)).filter
          (fun e => !isNonAuthorContactEmail e))
    some ⟨formattedName, normalizedShortNames, candidateEmails⟩

/-- Insertion into the email-to-owner-indices map, preserving JS Map
insertion order. -/
def addOwner (email : Str) (idx : Nat) :
    List (Str × List Nat) → List (Str × List Nat)
  | [] => [(email, [idx])]
  | (e, owners) :: rest =>
    if e = email then
      (e, if idx ∈ owners then owners else owners ++ [idx]) :: rest
    else (e, owners) :: addOwner email idx rest

def buildOwnerMap (pas : List PAuthor) : List (Str × List Nat) :=
  pas.enum.foldl
    (fun acc p =>
      p.2.candidateEmails.foldl (fun acc2 email => addOwner email p.1 acc2) acc)
    []

/-- assignEmailToAuthor of parseMedline.flushRecord: best scorer over all
prepared authors with an ownership bonus of 2, then the single-owner and
single-author fallbacks. -/
def assignEmailToAuthor (pas : List PAuthor) (email : Str)
    (owners : List Nat) : Option Str :=
  let r := pas.enum.foldl
    (fun (acc : Int × Int) p =>
      let base : Int := (scoreAuthorEmailMatch email p.2.name p.2.shortNames : Int)
      let score := if p.1 ∈ owners then base + 2 else base
      if acc.2 < score then ((p.1 : Int), score) else acc)
    (-1, -1)
  if 0 ≤ r.1 && 0 < r.2 then (pas.get? r.1.toNat).map (fun p => p.name)
  else if owners.length = 1 then
    (pas.get? (owners.headD 0)).map (fun p => p.name)
  else if pas.length = 1 then pas.head?.map (fun p => p.name)
  else none

/-- The record-emission loop of parseMedline.flushRecord over the owner map. -/
def emitAssigned (title : Str) (pas : List PAuthor) :
    List (Str × List Nat) → List Rec × List Str → List Rec × List Str
  | [], st => st
  | (email, owners) :: rest, st =>
    let st2 :=
      match assignEmailToAuthor pas email owners with
      | none => st
      | some authorName => pushUnique title authorName email ("PubMed".toList) st
    emitAssigned title pas rest st2

inductive MTag where
  | ti
  | fau
  | au
  | ad
deriving DecidableEq, Repr

structure MState where
  rows : List Rec
  keys : List Str
  total : Nat
  titleParts : List Str
  authors : List MAuthor
  hasCurrent : Bool
  currentTag : Option MTag
deriving Repr

def modifyLast {α : Type} (f : α → α) : List α → List α
  | [] => []
  | [x] => [f x]
  | x :: y :: rest => x :: modifyLast f (y :: rest)

/-- flushRecord of parseMedline: count the unit, then drop it on an empty
title or zero usable authors, else assign and emit. -/
def flushMedline (st : MState) : MState :=
  if st.titleParts.isEmpty && st.authors.isEmpty then st
  else
    let total := st.total + 1
    let title := trimTrailingFullStop (joinSep ' ' st.titleParts)
    if title.isEmpty then
      { rows := st.rows, keys := st.keys, total := total, titleParts := [],
        authors := [], hasCurrent := false, currentTag := none }
    else
      let pas := st.authors.filterMap prepareAuthor
      if pas.isEmpty then
        { rows := st.rows, keys := st.keys, total := total, titleParts := [],
          authors := [], hasCurrent := false, currentTag := none }
      else
        let out := emitAssigned title pas (buildOwnerMap pas) (st.rows, st.keys)
        { rows := out.1, keys := out.2, total := total, titleParts := [],
          authors := [], hasCurrent := false, currentTag := none }

/-- The tag-line pattern: two to four capital letters, optional whitespace,
a hyphen, optional whitespace, then the value. -/
def tagMatchOf (line : Str) : Option (Str × Str) :=
  let letters := line.takeWhile isUpperAZ
  if 2 ≤ letters.length && letters.length ≤ 4 then
    match (line.drop letters.length).dropWhile isJsWs with
    | '-' :: rest2 => some (letters, trimList (rest2.dropWhile isJsWs))
    | _ => none
  else none

/-- The continuation-line test: leading whitespace then a non-whitespace
character. -/
def isContinuationLine (line : Str) : Bool :=
  match line with
  | [] => false
  | c :: _ => isJsWs c && !(line.dropWhile isJsWs).isEmpty

/-- Newline canonicalization shared by the text parsers: CRLF and CR to LF. -/
def normalizeNewlines : Str → Str
  | [] => []
  | '\r' :: '\n' :: rest => '\n' :: normalizeNewlines rest
  | '\r' :: rest => '\n' :: normalizeNewlines rest
  | c :: rest => c :: normalizeNewlines rest

def toLines (input : Str) : List Str :=
  splitOnC '\n'
    (normalizeNewlines (input.filter (fun c => !(c.toNat == 0xFEFF))))

/-- The tag-dispatch part of one parseMedline line (everything after the
record-start flush). -/
def medlineTagStep (st : MState) (line : Str) : MState :=
  match tagMatchOf line with
  | some (tag, value) =>
    if tag = "TI".toList then
      let st :=
        if !(st.titleParts.isEmpty && st.authors.isEmpty) then flushMedline st
        else st
      { st with currentTag := some .ti, titleParts := st.titleParts ++ [value] }
    else if tag = "FAU".toList then
      { st with currentTag := some .fau,
                authors := st.authors ++ [⟨value, [], []⟩], hasCurrent := true }
    else if tag = "AU".toList then
      if st.hasCurrent then
        let authors :=
          modifyLast (fun a => { a with shortNames := a.shortNames ++ [value] })
            st.authors
        { st with currentTag := some .au, authors := authors }
      else
        { st with currentTag := some .au,
                  authors := st.authors ++ [⟨value, [value], []⟩],
                  hasCurrent := true }
    else if tag = "AD".toList then
      if st.hasCurrent then
        let authors :=
          modifyLast (fun a => { a with affiliations := a.affiliations ++ [value] })
            st.authors
        { st with currentTag := some .ad, authors := authors }
      else { st with currentTag := some .ad }
    else { st with currentTag := none }
  | none =>
    if isContinuationLine line && st.currentTag.isSome then
      let continuation := trimList line
      match st.currentTag with
      | some .ti =>
        if !st.titleParts.isEmpty then
          let titleParts :=
            modifyLast (fun t => trimList (t ++ ' ' :: continuation))
              st.titleParts
          { st with titleParts := titleParts }
        else st
      | some .fau =>
        if st.hasCurrent then
          let authors :=
            modifyLast
              (fun a => { a with name := trimList (a.name ++ ' ' :: continuation) })
              st.authors
          { st with authors := authors }
        else st
      | some .au =>
        if st.hasCurrent then
          let authors :=
            modifyLast
              (fun a =>
                if a.shortNames.isEmpty then
                  { a with shortNames := [continuation] }
                else
                  let sns :=
                    modifyLast (fun sn => trimList (sn ++ ' ' :: continuation))
                      a.shortNames
                  { a with shortNames := sns })
              st.authors
          { st with authors := authors }
        else st
      | some .ad =>
        if st.hasCurrent then
          let authors :=
            modifyLast
              (fun a =>
                if a.affiliations.isEmpty then a
                else
                  let affs :=
                    modifyLast (fun x => trimList (x ++ ' ' :: continuation))
                      a.affiliations
                  { a with affiliations := affs })
              st.authors
          { st with authors := authors }
        else st
      | none => st
    else
      let untagged := trimList line
      if st.currentTag = some .ad && st.hasCurrent && !untagged.isEmpty then
        let authors :=
          modifyLast
            (fun a =>
              if a.affiliations.isEmpty then
                { a with affiliations := [untagged] }
              else
                let affs :=
                  modifyLast (fun x => trimList (x ++ ' ' :: untagged))
                    a.affiliations
                { a with affiliations := affs })
            st.authors
        { st with authors := authors }
      else st

/-- One line of the parseMedline state machine. -/
def medlineLine (st : MState) (line : Str) : MState :=
  medlineTagStep
    (if ("PMID-".toList).isPrefixOf line &&
        !(st.titleParts.isEmpty && st.authors.isEmpty) then
      flushMedline st
    else st) line

def mstate0 : MState := ⟨[], [], 0, [], [], false, none⟩

/-- parseMedline of pubmedTxtParser.ts. -/
def parseMedline (input : Str) : ParserResult0 :=
  let st := flushMedline ((toLines input).foldl medlineLine mstate0)
  ⟨st.rows, st.total⟩

/-! The free-text section parser of pubmedTxtParser.ts. -/

inductive ASection where
  | title
  | authors
  | affiliations
deriving DecidableEq, Repr

structure AState where
  rows : List Rec
  keys : List Str
  total : Nat
  titleParts : List Str
  authorLines : List Str
  affiliationLines : List Str
  recordLines : List Str
  currentSection : Option ASection
deriving Repr

def isWordChar (c : Char) : Bool := isAlnumC c || c == '_'

/-- Case-insensitive match of "et al" with an optional trailing dot at the
start of s; returns the remainder and whether the final consumed character
was a word character (for the following word-boundary context). -/
def etAlHere (s : Str) : Option (Str × Bool) :=
  match s with
  | c1 :: c2 :: c3 :: c4 :: c5 :: rest =>
    if lowerChar c1 == 'e' && lowerChar c2 == 't' && c3 == ' ' &&
        lowerChar c4 == 'a' && lowerChar c5 == 'l' then
      match rest with
      | '.' :: r => some (r, false)
      | r => some (r, true)
    else none
  | _ => none

/-- The global replace of the et-al regex with word boundary before "et". -/
def removeEtAlAux : Nat → Bool → Str → Str
  | 0, _, s => s
  | _, _, [] => []
  | fuel + 1, prevWord, c :: rest =>
    if !prevWord then
      match etAlHere (c :: rest) with
      | some (r, lastWord) => removeEtAlAux fuel lastWord r
      | none => c :: removeEtAlAux fuel (isWordChar c) rest
    else c :: removeEtAlAux fuel (isWordChar c) rest

def removeEtAl (s : Str) : Str := removeEtAlAux s.length false s

/-- Match of the author-separator regex (semicolon, comma, or the word "and",
each with trailing whitespace) at the start of s. -/
def sepHere (prevWord : Bool) (s : Str) : Option (Str × Bool) :=
  match s with
  | ';' :: r => some (r.dropWhile isJsWs, false)
  | ',' :: r => some (r.dropWhile isJsWs, false)
  | c1 :: c2 :: c3 :: r =>
    if !prevWord && lowerChar c1 == 'a' && lowerChar c2 == 'n' &&
        lowerChar c3 == 'd' && !isWordChar (r.headD ' ') then
      let r2 := r.dropWhile isJsWs
      some (r2, decide (r2.length = r.length))
    else none
  | _ => none

def splitSepsAux : Nat → Bool → Str → Str → List Str
  | 0, _, cur, s => [cur.reverse ++ s]
  | _, _, cur, [] => [cur.reverse]
  | fuel + 1, prevWord, cur, c :: rest =>
    match sepHere prevWord (c :: rest) with
    | some (r, lastWord) => cur.reverse :: splitSepsAux fuel lastWord [] r
    | none => splitSepsAux fuel (isWordChar c) (c :: cur) rest

def splitAuthorSeps (s : Str) : List Str := splitSepsAux s.length false [] s

/-- splitAuthorList of pubmedTxtParser.ts. -/
def splitAuthorList (authorText : Str) : List Str :=
  if authorText.isEmpty then []
  else
    let cleaned := normalizeExtractedText (dropDotEnd (removeEtAl authorText))
    ((splitAuthorSeps cleaned).map trimList).filter (fun i => 1 < i.length)

/-- The inline heading alternation of parseAbstractText with the headingMap
section each alternative maps to; the singular "author" alternative has no
map entry and so maps to no section. -/
def inlineHeadingPatterns : List (Str × Option ASection) :=
  [("title".toList, some .title), ("authors".toList, some .authors),
   ("author information".toList, some .affiliations),
   ("author".toList, none),
   ("affiliations".toList, some .affiliations),
   ("affiliation".toList, some .affiliations),
   ("correspondence".toList, some .affiliations)]

def findInlineHeading (trimmed : Str) : Option (Option ASection × Str) :=
  let lower := lowerStr trimmed
  (inlineHeadingPatterns.find? (fun p => (p.1 ++ [':']).isPrefixOf lower)).map
    (fun p => (p.2, trimList ((trimmed.drop (p.1.length + 1)).dropWhile isJsWs)))

/-- The standalone headingMap lookup of parseAbstractText. -/
def headingMapLookup (key : Str) : Option ASection :=
  if key = "title".toList then some .title
  else if key = "authors".toList then some .authors
  else if key = "author information".toList then some .affiliations
  else if key = "affiliation".toList then some .affiliations
  else if key = "affiliations".toList then some .affiliations
  else if key = "correspondence".toList then some .affiliations
  else none

def dropColonEnd (s : Str) : Str :=
  match s.reverse with
  | ':' :: r => r.reverse
  | _ => s

/-- The PMID line test of parseAbstractText. -/
def isPmidLine (trimmed : Str) : Bool :=
  let lower := lowerStr trimmed
  ("pmid:".toList).isPrefixOf lower &&
    isDigitC (((lower.drop 5).dropWhile isJsWs).headD ' ')

/-- flushRecord of parseAbstractText. -/
def flushAbstract (st : AState) : AState :=
  if st.titleParts.isEmpty && st.authorLines.isEmpty &&
      st.affiliationLines.isEmpty then st
  else
    let total := st.total + 1
    let title := normalizeExtractedText (joinSep ' ' st.titleParts)
    let authorText := normalizeExtractedText (joinSep ' ' st.authorLines)
    let authors := splitAuthorList authorText
    let affiliationText := joinSep ' ' st.affiliationLines
    let electronicEmails := extractElectronicEmails st.affiliationLines
    let emailsFromAffiliations := extractEmails affiliationText
    let emails :=
      if !emailsFromAffiliations.isEmpty then emailsFromAffiliations
      else extractEmails (joinSep ' ' st.recordLines)
    let chosenEmails :=
      if !electronicEmails.isEmpty then electronicEmails else emails
    let out := buildRecords title authors chosenEmails ("PubMed".toList)
      st.keys (!electronicEmails.isEmpty)
    { rows := st.rows ++ out.1, keys := out.2, total := total, titleParts := [],
      authorLines := [], affiliationLines := [], recordLines := [],
      currentSection := none }

def astate0 : AState := ⟨[], [], 0, [], [], [], [], none⟩

def aHasContent (st : AState) : Bool :=
  !(st.titleParts.isEmpty && st.authorLines.isEmpty &&
    st.affiliationLines.isEmpty)

/-- One line of the parseAbstractText state machine. -/
def abstractLine (st : AState) (line : Str) : AState :=
  let trimmed := trimList line
  if trimmed.isEmpty then st
  else
    match findInlineHeading trimmed with
    | some (mapped, value) =>
      let st :=
        if mapped = some ASection.title && aHasContent st then flushAbstract st
        else st
      let st := { st with currentSection := mapped }
      if value.isEmpty then st
      else
        match mapped with
        | some .title => { st with titleParts := st.titleParts ++ [value] }
        | some .authors => { st with authorLines := st.authorLines ++ [value] }
        | some .affiliations =>
          { st with affiliationLines := st.affiliationLines ++ [value] }
        | none => st
    | none =>
      match headingMapLookup (lowerStr (dropColonEnd trimmed)) with
      | some sec =>
        let st :=
          if sec = ASection.title && aHasContent st then flushAbstract st
          else st
        { st with currentSection := some sec }
      | none =>
        if isPmidLine trimmed && aHasContent st then
          flushAbstract { st with recordLines := st.recordLines ++ [trimmed] }
        else
          let st := { st with recordLines := st.recordLines ++ [trimmed] }
          match st.currentSection with
          | some .title => { st with titleParts := st.titleParts ++ [trimmed] }
          | some .authors =>
            { st with authorLines := st.authorLines ++ [trimmed] }
          | some .affiliations =>
            { st with affiliationLines := st.affiliationLines ++ [trimmed] }
          | none => st

/-- Line splitting of parseAbstractText (newline canonicalization only, no
byte-order-mark removal). -/
def toLinesNoBom (input : Str) : List Str :=
  splitOnC '\n' (normalizeNewlines input)

/-- parseAbstractText of pubmedTxtParser.ts. -/
def parseAbstractText (input : Str) : ParserResult0 :=
  let st := flushAbstract ((toLinesNoBom input).foldl abstractLine astate0)
  ⟨st.rows, st.total⟩

/-! The tab-delimited MDPI parser. -/

/-- normalizeWhitespace of the MDPI module: plain collapse and trim, without
the Unicode pipeline. -/
def normalizeWsPlain (s : Str) : Str := trimList (collapseWs s)

def normalizeHeaderMdpi (s : Str) : Str := lowerStr (normalizeWsPlain s)

/-- formatAuthorName of the MDPI module (built on the plain whitespace
normalizer). -/
def formatAuthorNameMdpi (raw : Str) : Str :=
  let cleaned := normalizeWsPlain (dropDotEnd raw)
  match cleaned.findIdx? (fun c => c == ',') with
  | some i =>
    let last := trimList (cleaned.take i)
    let rest := trimList (cleaned.drop (i + 1))
    if !last.isEmpty && !rest.isEmpty then normalizeWsPlain (rest ++ ' ' :: last)
    else cleaned
  | none => cleaned

def splitAuthorsMdpi (v : Str) : List Str :=
  dedupeList (((splitOnC ';' v).map formatAuthorNameMdpi).filter
    (fun a => !a.isEmpty))

def splitEmailsMdpi (v : Str) : List Str :=
  dedupeList (((extractEmails v).map trimList).filter (fun e => !e.isEmpty))

/-- pairAuthorsAndEmails of the MDPI module.  List.zip truncates to the
shorter length, which is exactly the pairCount loop of the source. -/
def pairAuthorsAndEmails (authors emails : List Str) : List (Str × Str) :=
  if authors.isEmpty || emails.isEmpty then []
  else if authors.length == emails.length then authors.zip emails
  else if authors.length == 1 then emails.map (fun e => (authors.headD [], e))
  else if emails.length == 1 then [(authors.headD [], emails.headD [])]
  else authors.zip emails

structure TabRows where
  headers : List Str
  rows : List (List Str)
deriving DecidableEq, Repr

def splitTabs (s : Str) : List Str := splitOnC '\t' s

/-- One physical line of the logical-row assembly of parseTabDelimitedRows.
The state is the finished rows and the pending row buffer. -/
def tabStep (expected : Nat) (st : List (List Str) × Str) (raw : Str) :
    List (List Str) × Str :=
  if (trimList raw).isEmpty && st.2.isEmpty then st
  else
    let cur := if st.2.isEmpty then raw else st.2 ++ '\n' :: raw
    let columns := splitTabs cur
    if columns.length < expected then (st.1, cur)
    else if expected < columns.length then
      let fixed := columns.take (expected - 1) ++
        [joinSep '\t' (columns.drop (expected - 1))]
      (st.1 ++ [fixed], [])
    else (st.1 ++ [columns], [])

/-- parseTabDelimitedRows of the MDPI module. -/
def parseTabDelimitedRows (content : Str) : Except Str TabRows :=
  let lines := toLines content
  match lines.find? (fun l => !(trimList l).isEmpty) with
  | none => .error ("The MDPI TXT file is empty.".toList)
  | some headerLine =>
    let headerIndex := lines.indexOf headerLine
    let headers := splitTabs headerLine
    let st := (lines.drop (headerIndex + 1)).foldl
      (tabStep headers.length) ([], [])
    .ok ⟨headers, st.1⟩

/-- The headerMap lookup: the reduce overwrites duplicates, so the last
matching header wins. -/
def headerIdx (headers : List Str) (name : Str) : Option Nat :=
  ((headers.enum.filter (fun p => normalizeHeaderMdpi p.2 = name)).getLast?).map
    (fun p => p.1)

/-- One data row of parseMdpiTxt. -/
def mdpiRow (titleIndex authorIndex emailIndex : Nat)
    (st : (List Rec × List Str) × Nat) (row : List Str) :
    (List Rec × List Str) × Nat :=
  let total := st.2 + 1
  let title := normalizeWsPlain (row.getD titleIndex [])
  let authors := splitAuthorsMdpi (row.getD authorIndex [])
  let emails := splitEmailsMdpi (row.getD emailIndex [])
  let out := (pairAuthorsAndEmails authors emails).foldl
    (fun st2 pair =>
      if title.isEmpty || pair.1.isEmpty || pair.2.isEmpty then st2
      else pushUnique title pair.1 pair.2 ("MDPI".toList) st2)
    st.1
  (out, total)

def missingColumnsMessage : Str :=
  ("Missing required MDPI columns. Expected tab-delimited headers for " ++
    "Author, Email, and Title.").toList

def genericMdpiFailure : Str :=
  "An unexpected error occurred during MDPI TXT parsing.".toList

/-- The three required column lookups of parseMdpiTxt, as author, email and
title indices. -/
def mdpiIndices (headers : List Str) : Option (Nat × Nat × Nat) :=
  match headerIdx headers ("author".toList),
      headerIdx headers ("email".toList),
      headerIdx headers ("title".toList) with
  | some authorIndex, some emailIndex, some titleIndex =>
    some (authorIndex, emailIndex, titleIndex)
  | _, _, _ => none

/-- The try block of parseMdpiTxt. -/
def parseMdpiInner (content : Str) : Except Str ParserResult0 :=
  match parseTabDelimitedRows content with
  | .error e => .error e
  | .ok tr =>
    match mdpiIndices tr.headers with
    | some idx =>
      let final := tr.rows.foldl (mdpiRow idx.2.2 idx.1 idx.2.1) (([], []), 0)
      .ok ⟨final.1.1, final.2⟩
    | none => .error missingColumnsMessage

/-- parseMdpiTxt of the MDPI module: the catch-all replaces every inner
failure, the descriptive ones included, by the one generic failure. -/
def parseMdpiTxt (content : Str) : Except Str ParserResult0 :=
  match parseMdpiInner content with
  | .ok r => .ok r
  | .error _ => .error genericMdpiFailure

/-! The Europe PMC XML parser.  The DOM parse facility is the external
collaborator of the spec; the embedding takes the parsed element tree, in
which a host-inserted parsererror element marks a malformed document. -/

mutual

inductive XNode where
  | elem (tag : Str) (children : XForest)
  | txt (s : Str)

inductive XForest where
  | nil
  | cons (head : XNode) (tail : XForest)

end

def XForest.ofList : List XNode → XForest
  | [] => .nil
  | n :: rest => .cons n (XForest.ofList rest)

/-- Element node constructor over a plain child list. -/
def xelem (tag : Str) (children : List XNode) : XNode :=
  .elem tag (XForest.ofList children)

def xtxt (s : Str) : XNode := .txt s

mutual

/-- All element descendants of a node, preorder, excluding the node itself. -/
def descElems : XNode → List XNode
  | .elem _ cs => descForest cs
  | .txt _ => []

def descForest : XForest → List XNode
  | .nil => []
  | .cons (XNode.elem t cs) tail =>
    XNode.elem t cs :: (descForest cs ++ descForest tail)
  | .cons (XNode.txt _) tail => descForest tail

end

mutual

/-- textContent of a DOM node. -/
def textContent : XNode → Str
  | .txt s => s
  | .elem _ cs => textForest cs

def textForest : XForest → Str
  | .nil => []
  | .cons c rest => textContent c ++ textForest rest

end

def tagOf : XNode → Str
  | .elem t _ => t
  | .txt _ => []

/-- All elements of the document, the root included (document query). -/
def docElems (doc : XNode) : List XNode :=
  match doc with
  | XNode.elem t cs => XNode.elem t cs :: descElems (XNode.elem t cs)
  | XNode.txt _ => []

/-- The container selection of parseEuropePMC: result nodes, else article
nodes. -/
def epmcContainers (doc : XNode) : List XNode :=
  let results := (docElems doc).filter (fun n => tagOf n == "result".toList)
  if results.isEmpty then
    (docElems doc).filter (fun n => tagOf n == "article".toList)
  else results

/-- The title search of parseEuropePMC: first descendant whose tag name
contains "title" with non-empty trimmed text. -/
def epmcTitleOf (article : XNode) : Str :=
  match (descElems article).find?
      (fun el =>
        containsSub (lowerStr (tagOf el)) ("title".toList) &&
          !(trimList (textContent el)).isEmpty) with
  | some el => trimList (textContent el)
  | none => []

structure EAuthorInfo where
  firstName : Option Str
  lastName : Option Str
  affiliations : List Str

/-- The descendant scan of one author node of parseEuropePMC. -/
def epmcAuthorInfo (author : XNode) : EAuthorInfo :=
  (descElems author).foldl
    (fun ai el =>
      let tag := lowerStr (tagOf el)
      let text := trimList (textContent el)
      if text.isEmpty then ai
      else if ("firstname".toList).isSuffixOf tag then
        { ai with firstName := some text }
      else if ("lastname".toList).isSuffixOf tag then
        { ai with lastName := some text }
      else if ("affiliation".toList).isSuffixOf tag then
        { ai with affiliations := ai.affiliations ++ [text] }
      else ai)
    ⟨none, none, []⟩

/-- The record emission for one author node of parseEuropePMC. -/
def epmcEmitAuthor (title : Str) (author : XNode) (st : List Rec × List Str) :
    List Rec × List Str :=
  let ai := epmcAuthorInfo author
  match ai.firstName, ai.lastName with
  | some fn, some ln =>
    if ai.affiliations.isEmpty then st
    else
      let fullName := fn ++ ' ' :: ln
      ai.affiliations.foldl
        (fun st2 aff =>
          (extractEmails aff).foldl
            (fun st3 email =>
              pushUnique title fullName email ("Europe PMC".toList) st3)
            st2)
        st
  | _, _ => st

/-- The per-container processing of parseEuropePMC. -/
def epmcEmitContainer (article : XNode) (st : List Rec × List Str) :
    List Rec × List Str :=
  let authors := (descElems article).filter (fun n => tagOf n == "author".toList)
  if authors.isEmpty then st
  else
    let title := epmcTitleOf article
    if title.isEmpty then st
    else authors.foldl (fun st2 a => epmcEmitAuthor title a st2) st

def xmlFailureMessage : Str := "Invalid XML format or file is corrupted.".toList

def xmlGenericFailure : Str :=
  "An unexpected error occurred during parsing.".toList

/-- parseEuropePMC of europepmcParser.ts over the parsed document tree. -/
def parseEuropePMC (doc : XNode) : Except Str ParserResult0 :=
  if !((docElems doc).filter
      (fun n => tagOf n == "parsererror".toList)).isEmpty then
    .error xmlFailureMessage
  else
    let containers := epmcContainers doc
    let st := containers.foldl (fun st c => epmcEmitContainer c st) ([], [])
    .ok ⟨st.1, containers.length⟩

/-! Skeleton unit counters: the same boundary detection as the parsers,
tracking only whether the accumulation buffers are non-empty, with no record
building, email extraction or validity checking.  They witness that
totalProcessed depends only on the detected source-level unit boundaries. -/

structure MSkel where
  total : Nat
  titleNE : Bool
  authorsNE : Bool
  tag : Option MTag
deriving Repr

def flushSkel (sk : MSkel) : MSkel :=
  if !sk.titleNE && !sk.authorsNE then sk
  else ⟨sk.total + 1, false, false, none⟩

def skelTagStep (sk : MSkel) (line : Str) : MSkel :=
  match tagMatchOf line with
  | some (tag, _) =>
    if tag = "TI".toList then
      let sk := if sk.titleNE || sk.authorsNE then flushSkel sk else sk
      { sk with tag := some .ti, titleNE := true }
    else if tag = "FAU".toList then { sk with tag := some .fau, authorsNE := true }
    else if tag = "AU".toList then { sk with tag := some .au, authorsNE := true }
    else if tag = "AD".toList then { sk with tag := some .ad }
    else { sk with tag := none }
  | none => sk

def skelLine (sk : MSkel) (line : Str) : MSkel :=
  skelTagStep
    (if ("PMID-".toList).isPrefixOf line && (sk.titleNE || sk.authorsNE) then
      flushSkel sk
    else sk) line

/-- The number of detected MEDLINE record units of an input. -/
def medlineUnits (input : Str) : Nat :=
  (flushSkel ((toLines input).foldl skelLine ⟨0, false, false, none⟩)).total

structure ASkel where
  total : Nat
  titleNE : Bool
  authorsNE : Bool
  affNE : Bool
  sec : Option ASection
deriving Repr

def aSkelContent (sk : ASkel) : Bool := sk.titleNE || sk.authorsNE || sk.affNE

def flushASkel (sk : ASkel) : ASkel :=
  if !aSkelContent sk then sk
  else ⟨sk.total + 1, false, false, false, none⟩

def askelLine (sk : ASkel) (line : Str) : ASkel :=
  let trimmed := trimList line
  if trimmed.isEmpty then sk
  else
    match findInlineHeading trimmed with
    | some (mapped, value) =>
      let sk :=
        if mapped = some ASection.title && aSkelContent sk then flushASkel sk
        else sk
      let sk := { sk with sec := mapped }
      if value.isEmpty then sk
      else
        match mapped with
        | some .title => { sk with titleNE := true }
        | some .authors => { sk with authorsNE := true }
        | some .affiliations => { sk with affNE := true }
        | none => sk
    | none =>
      match headingMapLookup (lowerStr (dropColonEnd trimmed)) with
      | some sec =>
        let sk :=
          if sec = ASection.title && aSkelContent sk then flushASkel sk else sk
        { sk with sec := some sec }
      | none =>
        if isPmidLine trimmed && aSkelContent sk then flushASkel sk
        else
          match sk.sec with
          | some .title => { sk with titleNE := true }
          | some .authors => { sk with authorsNE := true }
          | some .affiliations => { sk with affNE := true }
          | none => sk

/-- The number of detected free-text record units of an input. -/
def abstractUnits (input : Str) : Nat :=
  (flushASkel
    ((toLinesNoBom input).foldl askelLine ⟨0, false, false, false, none⟩)).total

/-! Identifier attachment.  Modelled from the spec: the external
unique-identifier generator (crypto.randomUUID) supplies the id of each
record; one invocation draws the stream g in record-creation order. -/

structure RecId where
  id : Str
  core : Rec
deriving DecidableEq, Repr

structure ParserResultId where
  records : List RecId
  totalProcessed : Nat
deriving DecidableEq, Repr

def attachIds (g : Nat → Str) (rs : List Rec) : List RecId :=
  rs.enum.map (fun p => ⟨g p.1, p.2⟩)

def parseMedlineWithIds (g : Nat → Str) (input : Str) : ParserResultId :=
  let r := parseMedline input
  ⟨attachIds g r.records, r.totalProcessed⟩

def parseAbstractTextWithIds (g : Nat → Str) (input : Str) : ParserResultId :=
  let r := parseAbstractText input
  ⟨attachIds g r.records, r.totalProcessed⟩

def parseMdpiTxtWithIds (g : Nat → Str) (content : Str) :
    Except Str ParserResultId :=
  match parseMdpiTxt content with
  | .error e => .error e
  | .ok r => .ok ⟨attachIds g r.records, r.totalProcessed⟩

def parseEuropePMCWithIds (g : Nat → Str) (doc : XNode) :
    Except Str ParserResultId :=
  match parseEuropePMC doc with
  | .error e => .error e
  | .ok r => .ok ⟨attachIds g r.records, r.totalProcessed⟩

def stripIds (r : ParserResultId) : ParserResult0 :=
  ⟨r.records.map (fun x => x.core), r.totalProcessed⟩

def stripIdsE : Except Str ParserResultId → Except Str ParserResult0
  | .error e => .error e
  | .ok r => .ok (stripIds r)

/-- The pairing rule as the spec states it, for the refinement comparison of
C9: equal counts pair by index; a single author takes every email; a single
email goes to the first of several authors only; otherwise pair by index up
to the shorter length and drop the remainder. -/
def pairSpec (authors emails : List Str) : List (Str × Str) :=
  if authors.length = emails.length then authors.zip emails
  else if authors.length = 1 then emails.map (fun e => (authors.headD [], e))
  else if emails.length = 1 ∧ 2 ≤ authors.length then
    [(authors.headD [], emails.headD [])]
  else authors.zip emails

/-- The run of trailing physical lines never assembles to the header column
count: the simulation of the row buffer alone. -/
def tabNeverCompletes (expected : Nat) : Str → List Str → Bool
  | _, [] => true
  | buf, raw :: rest =>
    if (trimList raw).isEmpty && buf.isEmpty then
      tabNeverCompletes expected buf rest
    else
      let cur := if buf.isEmpty then raw else buf ++ '\n' :: raw
      if (splitTabs cur).length < expected then
        tabNeverCompletes expected cur rest
      else false

/-! Verification-side definitions. -/

def exceptToSum {ε α : Type} : Except ε α → Sum ε α
  | .error e => .inl e
  | .ok a => .inr a

instance {ε α : Type} [DecidableEq ε] [DecidableEq α] :
    DecidableEq (Except ε α) := fun a b =>
  decidable_of_iff (exceptToSum a = exceptToSum b)
    (by cases a <;> cases b <;> simp [exceptToSum])

def recTriple (r : Rec) : Str × Str × Str := (r.title, r.author, r.email)

def recKeyOf (r : Rec) : Str := recKey r.title r.author r.email

/-- The dedup invariant threaded through every parser: every emitted row's
key is in the key set, and the emitted rows have pairwise distinct keys. -/
def DedupInv (st : List Rec × List Str) : Prop :=
  (∀ r ∈ st.1, recKeyOf r ∈ st.2) ∧
    st.1.Pairwise (fun r s => recKeyOf r ≠ recKeyOf s)

def MInv (st : MState) : Prop := DedupInv (st.rows, st.keys)

def AInv (st : AState) : Prop := DedupInv (st.rows, st.keys)

/-- The simulation relation between the MEDLINE parser state and its
skeleton counter. -/
def MRel (st : MState) (sk : MSkel) : Prop :=
  sk.total = st.total ∧ sk.titleNE = !st.titleParts.isEmpty ∧
    sk.authorsNE = !st.authors.isEmpty ∧ sk.tag = st.currentTag ∧
    (st.hasCurrent = true → st.authors ≠ [])

/-- The simulation relation between the free-text parser state and its
skeleton counter. -/
def ARel (st : AState) (sk : ASkel) : Prop :=
  sk.total = st.total ∧ sk.titleNE = !st.titleParts.isEmpty ∧
    sk.authorsNE = !st.authorLines.isEmpty ∧
    sk.affNE = !st.affiliationLines.isEmpty ∧ sk.sec = st.currentSection

/-! Concrete inputs used by counterexamples and witnesses. -/

def medScenarioInput : Str :=
  ("TI  - Gene X regulates Y.\nFAU - Smith, John\n" ++
   "AD  - Dept of Biology. Electronic address: jsmith@uni.edu.\nPMID- 1").toList

def strictDropCexInput : Str :=
  ("TI  - Paper T.\nFAU - Smith, John\nFAU - Jones, Mary\n" ++
   "AD  - Dept of Biology. Electronic address: smith@uni.edu.").toList

def strictDropPosInput : Str :=
  ("TI  - Paper T.\nFAU - Smith, John\nFAU - Jones, Mary\n" ++
   "AD  - Dept of Biology. Electronic address: jones@uni.edu.").toList

/-- A free-text record with two authors and one electronic-address email
matching neither author: the strict path must drop the email. -/
def strictDropDropInput : Str :=
  ("Title: Paper T\nAuthors: John Smith; Mary Jones\n" ++
   "Affiliations: Dept. Electronic address: zzz@other.org").toList

/-- The same record without the electronic-address marker: non-strict
matching defaults the unmatched email to the first author. -/
def nonStrictDefaultInput : Str :=
  ("Title: Paper T\nAuthors: John Smith; Mary Jones\n" ++
   "Affiliations: Dept. zzz@other.org").toList

def poolCexInput : Str :=
  ("TI  - Paper T.\nFAU - Smith, John\nAD  - Dept. smith@x.com\n" ++
   "FAU - Jones, Mary\nAD  - Dept. smith@y.com").toList

def caseCexInput : Str :=
  ("TI  - Paper T.\nFAU - Smith, John\nAD  - Dept. JSmith@Uni.edu").toList

def emptyTitleUnitInput : Str := ("TI  - .\nFAU - Smith, John").toList

def noAuthorUnitInput : Str := ("TI  - T\nFAU -").toList

def abSimpleInput : Str :=
  ("Title: Paper A\nAuthors: Ann Bee\nAffiliations: Dept, a@b.cc").toList

def mdScenarioInput : Str :=
  ("Title\tAuthor\tEmail\n" ++
   "Paper A\tJane Doe; John Roe\tjane@x.com; john@x.com").toList

def mdMissingColInput : Str := ("Title\tAuthor\nA\tB").toList

def mdBaseInput : Str :=
  ("Title\tAuthor\tEmail\nPaper A\tJane Doe\tjane@x.com").toList

def mdTrailingInput : Str :=
  ("Title\tAuthor\tEmail\nPaper A\tJane Doe\tjane@x.com\n" ++
   "Incomplete\tOnly").toList

/-- A tab-delimited input of a header row alone: zero logical data rows. -/
def mdHeaderOnlyInput : Str := ("Title\tAuthor\tEmail").toList

/-- An XML document of two result containers, neither holding an author-like
descendant: two detected units, zero output records. -/
def epmcNoAuthorDoc : XNode :=
  xelem ("response".toList)
    [xelem ("result".toList) [], xelem ("result".toList) []]

def epmcScenarioDoc : XNode :=
  xelem ("resultList".toList)
    [xelem ("result".toList)
      [xelem ("title".toList) [xtxt ("Paper X".toList)],
       xelem ("authorList".toList)
        [xelem ("author".toList)
          [xelem ("firstName".toList) [xtxt ("Ann".toList)],
           xelem ("lastName".toList) [xtxt ("Bee".toList)],
           xelem ("affiliation".toList) [xtxt ("Dept ann@x.org".toList)]],
         xelem ("author".toList)
          [xelem ("firstName".toList) [xtxt ("Cal".toList)],
           xelem ("lastName".toList) [xtxt ("Dee".toList)],
           xelem ("affiliation".toList) [xtxt ("Lab cal@y.org".toList)]]]],
     xelem ("result".toList) [xelem ("title".toList) [xtxt ("No Authors".toList)]]]

def epmcErrorDoc : XNode :=
  xelem ("root".toList) [xelem ("parsererror".toList) [xtxt ("bad".toList)]]

/-! Supporting lemmas about whitespace handling. -/

theorem mem_dropWhile {p : Char → Bool} :
    ∀ {s : Str} {c : Char}, c ∈ s.dropWhile p → c ∈ s := by
  intro s
  induction s with
  | nil => intro c hc; simp at hc
  | cons a t ih =>
    intro c hc
    rw [List.dropWhile_cons] at hc
    by_cases h : p a = true
    · simp only [h, if_true] at hc
      exact List.mem_cons_of_mem a (ih hc)
    · simp only [h, if_false] at hc
      exact hc

theorem mem_dropTrailingWs :
    ∀ {s : Str} {c : Char}, c ∈ dropTrailingWs s → c ∈ s := by
  intro s
  induction s with
  | nil => intro c hc; simp [dropTrailingWs] at hc
  | cons a t ih =>
    intro c hc
    rw [dropTrailingWs] at hc
    split at hc
    · simp at hc
    · rcases List.mem_cons.mp hc with h | h
      · exact h ▸ List.mem_cons_self a t
      · exact List.mem_cons_of_mem a (ih h)

theorem mem_trimList {s : Str} {c : Char} (h : c ∈ trimList s) : c ∈ s :=
  mem_dropWhile (mem_dropTrailingWs h)

theorem mem_collapse :
    ∀ s : Str,
      (∀ c ∈ collapseWs s, c ∈ s ∨ c = ' ') ∧
        (∀ c ∈ skipWsThen s, c ∈ s ∨ c = ' ')
  | [] => by
    constructor <;> intro c hc <;> simp [collapseWs, skipWsThen] at hc
  | a :: t => by
    obtain ⟨ih1, ih2⟩ := mem_collapse t
    constructor
    · intro c hc
      rw [collapseWs] at hc
      split at hc
      · rcases List.mem_cons.mp hc with h | h
        · exact Or.inr h
        · rcases ih2 c h with h2 | h2
          · exact Or.inl (List.mem_cons_of_mem a h2)
          · exact Or.inr h2
      · rcases List.mem_cons.mp hc with h | h
        · exact Or.inl (h ▸ List.mem_cons_self a t)
        · rcases ih1 c h with h2 | h2
          · exact Or.inl (List.mem_cons_of_mem a h2)
          · exact Or.inr h2
    · intro c hc
      rw [skipWsThen] at hc
      split at hc
      · rcases ih2 c hc with h2 | h2
        · exact Or.inl (List.mem_cons_of_mem a h2)
        · exact Or.inr h2
      · rcases List.mem_cons.mp hc with h | h
        · exact Or.inl (h ▸ List.mem_cons_self a t)
        · rcases ih1 c h with h2 | h2
          · exact Or.inl (List.mem_cons_of_mem a h2)
          · exact Or.inr h2

theorem wellCollapsed_tail {c : Char} {l : Str}
    (h : wellCollapsed (c :: l) = true) : wellCollapsed l = true := by
  rw [wellCollapsed] at h
  exact (Bool.and_eq_true_iff.mp h).2

theorem collapse_wellCollapsed :
    ∀ s : Str,
      wellCollapsed (collapseWs s) = true ∧
        wellCollapsed (skipWsThen s) = true ∧
          isJsWs ((skipWsThen s).headD 'a') = false
  | [] => by
    refine ⟨rfl, rfl, ?_⟩
    simp [skipWsThen]
    decide
  | a :: t => by
    obtain ⟨ih1, ih2, ih3⟩ := collapse_wellCollapsed t
    rw [collapseWs, skipWsThen]
    by_cases h : isJsWs a = true
    · simp only [h, if_true]
      refine ⟨?_, ih2, ih3⟩
      rw [wellCollapsed]
      refine Bool.and_eq_true_iff.mpr ⟨?_, ih2⟩
      rw [if_pos (show isJsWs ' ' = true by decide)]
      rw [ih3]
      decide
    · simp only [h, if_false]
      have hw : wellCollapsed (a :: collapseWs t) = true := by
        rw [wellCollapsed]
        simp [h, ih1]
      refine ⟨hw, hw, ?_⟩
      simpa using h

theorem collapse_eq_self :
    ∀ s : Str,
      (wellCollapsed s = true → collapseWs s = s) ∧
        (wellCollapsed s = true → isJsWs (s.headD 'a') = false →
          skipWsThen s = s)
  | [] => ⟨fun _ => rfl, fun _ _ => rfl⟩
  | a :: t => by
    obtain ⟨ih1, ih2⟩ := collapse_eq_self t
    constructor
    · intro hwc
      rw [wellCollapsed] at hwc
      obtain ⟨hhead, htail⟩ := Bool.and_eq_true_iff.mp hwc
      rw [collapseWs]
      by_cases h : isJsWs a = true
      · simp only [h, if_true] at hhead ⊢
        obtain ⟨hsp, hnext⟩ := Bool.and_eq_true_iff.mp hhead
        have ha : a = ' ' := by simpa using hsp
        have hnext2 : isJsWs (t.headD 'a') = false := by
          simpa using hnext
        rw [ih2 htail hnext2, ha]
      · rw [if_neg h, ih1 htail]
    · intro hwc hhead
      rw [wellCollapsed] at hwc
      obtain ⟨_, htail⟩ := Bool.and_eq_true_iff.mp hwc
      rw [skipWsThen]
      have h : ¬isJsWs a = true := by
        simp only [List.headD_cons] at hhead
        simp [hhead]
      rw [if_neg h, ih1 htail]

theorem dropTrailingWs_head {s : Str} {x : Char} :
    dropTrailingWs s = [] ∨ (dropTrailingWs s).headD x = s.headD x := by
  cases s with
  | nil => exact Or.inl rfl
  | cons c r =>
    rw [dropTrailingWs]
    split
    · exact Or.inl rfl
    · exact Or.inr rfl

theorem dropTrailingWs_wellCollapsed :
    ∀ {s : Str}, wellCollapsed s = true →
      wellCollapsed (dropTrailingWs s) = true := by
  intro s
  induction s with
  | nil => intro _; rfl
  | cons c r ih =>
    intro hwc
    rw [wellCollapsed] at hwc
    obtain ⟨hhead, htail⟩ := Bool.and_eq_true_iff.mp hwc
    rw [dropTrailingWs]
    split
    · rfl
    · rename_i hcond
      rw [wellCollapsed]
      refine Bool.and_eq_true_iff.mpr ⟨?_, ih htail⟩
      by_cases h : isJsWs c = true
      · simp only [h, if_true] at hhead ⊢
        obtain ⟨hsp, hnext⟩ := Bool.and_eq_true_iff.mp hhead
        refine Bool.and_eq_true_iff.mpr ⟨hsp, ?_⟩
        have hne : ¬(dropTrailingWs r).isEmpty = true := by
          intro he
          exact hcond (by simp [he, h])
        rcases dropTrailingWs_head (s := r) (x := 'a') with h0 | h0
        · exact absurd (by simp [h0]) hne
        · rw [h0]
          exact hnext
      · simp [h]

theorem dropTrailingWs_idem : ∀ s : Str,
    dropTrailingWs (dropTrailingWs s) = dropTrailingWs s := by
  intro s
  induction s with
  | nil => rfl
  | cons c r ih =>
    rw [dropTrailingWs]
    split
    · rfl
    · rename_i hcond
      rw [dropTrailingWs, ih]
      split
      · rename_i hcond2
        exact absurd hcond2 hcond
      · rfl

theorem dropTrailingWs_headD_nonWs {s : Str}
    (h : isJsWs (s.headD 'a') = false) :
    isJsWs ((dropTrailingWs s).headD 'a') = false := by
  rcases dropTrailingWs_head (s := s) (x := 'a') with h0 | h0
  · rw [h0]
    decide
  · rw [h0]
    exact h

theorem dropWhileWs_headD_nonWs :
    ∀ s : Str, isJsWs ((s.dropWhile isJsWs).headD 'a') = false := by
  intro s
  induction s with
  | nil => decide
  | cons a t ih =>
    rw [List.dropWhile_cons]
    by_cases h : isJsWs a = true
    · simp only [h, if_true]
      exact ih
    · simp only [h]
      simp only [Bool.false_eq_true, if_false, List.headD_cons]
      simpa using h

theorem dropWhile_eq_self_of_headD {s : Str}
    (h : isJsWs (s.headD 'a') = false) : s.dropWhile isJsWs = s := by
  cases s with
  | nil => rfl
  | cons a t =>
    rw [List.dropWhile_cons]
    simp only [List.headD_cons] at h
    simp [h]

theorem dropWhileWs_wellCollapsed {s : Str} (hwc : wellCollapsed s = true) :
    wellCollapsed (s.dropWhile isJsWs) = true := by
  induction s with
  | nil => exact hwc
  | cons a t ih =>
    rw [List.dropWhile_cons]
    by_cases h : isJsWs a = true
    · simp only [h, if_true]
      exact ih (wellCollapsed_tail hwc)
    · simp only [h]
      simpa using hwc

theorem trimList_wellCollapsed {s : Str} (hwc : wellCollapsed s = true) :
    wellCollapsed (trimList s) = true :=
  dropTrailingWs_wellCollapsed (dropWhileWs_wellCollapsed hwc)

theorem trimList_headD_nonWs (s : Str) :
    isJsWs ((trimList s).headD 'a') = false :=
  dropTrailingWs_headD_nonWs (dropWhileWs_headD_nonWs s)

theorem trimList_fix {s : Str} : trimList (trimList s) = trimList s := by
  rw [trimList]
  rw [dropWhile_eq_self_of_headD (trimList_headD_nonWs s)]
  rw [trimList, dropTrailingWs_idem]

theorem normalize_chars {s : Str} {c : Char}
    (hc : c ∈ normalizeExtractedText s) :
    isZeroWidth c = false ∧ isCtrlStrip c = false := by
  simp only [normalizeExtractedText] at hc
  have h1 := mem_trimList hc
  rcases (mem_collapse _).1 c h1 with h2 | h2
  · have h3 := List.mem_filter.mp h2
    have h4 := List.mem_filter.mp h3.1
    constructor
    · simpa using h4.2
    · simpa using h3.2
  · subst h2
    constructor <;> decide

theorem normalizeWith_chars {nfc : Str → Str} {s : Str} {c : Char}
    (hc : c ∈ normalizeExtractedTextWith nfc s) :
    isZeroWidth c = false ∧ isCtrlStrip c = false := by
  simp only [normalizeExtractedTextWith] at hc
  have h1 := mem_trimList hc
  rcases (mem_collapse _).1 c h1 with h2 | h2
  · have h3 := List.mem_filter.mp h2
    have h4 := List.mem_filter.mp h3.1
    constructor
    · simpa using h4.2
    · simpa using h3.2
  · subst h2
    constructor <;> decide

theorem normalizeWith_nfcNormalize (s : Str) :
    normalizeExtractedTextWith nfcNormalize s = normalizeExtractedText s := rfl

theorem nfcDemo_ascii : ∀ t : Str, allAscii t = true → nfcDemo t = t := by
  intro t
  induction t with
  | nil => intro h; rfl
  | cons c1 t1 ih =>
    intro h
    simp only [allAscii, List.all_cons, Bool.and_eq_true] at h
    obtain ⟨h1, h2⟩ := h
    cases t1 with
    | nil => rfl
    | cons c2 rest =>
      rw [nfcDemo]
      have hc2 : (c2.toNat == 0x301) = false := by
        simp only [List.all_cons, Bool.and_eq_true, decide_eq_true_eq] at h2
        have h3 := h2.1
        simp only [beq_eq_false_iff_ne, ne_eq]
        omega
      rw [hc2, Bool.and_false, if_neg (by decide : ¬ ((false : Bool) = true))]
      have h4 : allAscii (c2 :: rest) = true := by
        simp only [allAscii, List.all_cons, Bool.and_eq_true]
        simp only [List.all_cons, Bool.and_eq_true] at h2
        exact h2
      rw [ih h4]

/-- C2, counterexample: the composed normalization pipeline is not idempotent.
A doubly-encoded character entity loses one encoding layer per pass, and a
mojibake artifact revealed by zero-width stripping is repaired only on the
second pass. -/
theorem normalize_not_idempotent_cex :
    normalizeExtractedText (normalizeExtractedText ("&amp;amp;".toList)) ≠
        normalizeExtractedText ("&amp;amp;".toList) ∧
      normalizeExtractedText
          (normalizeExtractedText [chr 0xC3, chr 0x200B, chr 0xA9]) ≠
        normalizeExtractedText [chr 0xC3, chr 0x200B, chr 0xA9] := by
  constructor <;> decide

/-- C2 (amended): over every NFC implementation that fixes pure-ASCII strings
(as the Unicode standard guarantees of each conforming one), normalization is
idempotent on every input whose normalized output is pure ASCII and contains
no residual character-entity reference pattern and no likely-mojibake
artifact signature; on such inputs a second pass leaves the text unchanged. -/
theorem normalize_idempotent_on_stable (nfc : Str → Str)
    (hfix : ∀ t : Str, allAscii t = true → nfc t = t) (s : Str)
    (hascii : allAscii (normalizeExtractedTextWith nfc s) = true)
    (hent : entityTest (normalizeExtractedTextWith nfc s) = false)
    (hmoji : likelyMojibake (normalizeExtractedTextWith nfc s) = false) :
    normalizeExtractedTextWith nfc (normalizeExtractedTextWith nfc s) =
      normalizeExtractedTextWith nfc s := by
  set t := normalizeExtractedTextWith nfc s with ht
  have hrep : repairLikelyMojibake t = t := by
    rw [repairLikelyMojibake, hmoji]
    rfl
  have hdec : decodeEntities t = t := by
    rw [decodeEntities, hent]
    rfl
  have hnfc : nfc t = t := hfix t hascii
  have hzw : t.filter (fun c => !isZeroWidth c) = t :=
    List.filter_eq_self.mpr
      (fun c hc => by simp [(normalizeWith_chars (ht ▸ hc)).1])
  have hctrl : t.filter (fun c => !isCtrlStrip c) = t :=
    List.filter_eq_self.mpr
      (fun c hc => by simp [(normalizeWith_chars (ht ▸ hc)).2])
  have hz : t = trimList (collapseWs
      (((nfc (decodeEntities (repairLikelyMojibake s))).filter
          (fun c => !isZeroWidth c)).filter (fun c => !isCtrlStrip c))) := by
    rw [ht]
    rfl
  have hwc : wellCollapsed t = true := by
    rw [hz]
    exact trimList_wellCollapsed (collapse_wellCollapsed _).1
  have hcoll : collapseWs t = t := (collapse_eq_self t).1 hwc
  have htrim : trimList t = t := by
    rw [hz, trimList_fix]
  calc normalizeExtractedTextWith nfc t
      = trimList (collapseWs
          (((nfc (decodeEntities (repairLikelyMojibake t))).filter
              (fun c => !isZeroWidth c)).filter (fun c => !isCtrlStrip c))) :=
        rfl
    _ = t := by
        rw [hrep, hdec, hnfc, hzw, hctrl, hcoll, htrim]

/-- Witness for C2: the hypotheses of normalize_idempotent_on_stable
discharged at a concrete input, with the NFC stage instantiated by the
genuinely composing nfcDemo, which is visibly not the identity. -/
theorem normalize_idempotent_on_stable_witness :
    normalizeExtractedTextWith nfcDemo
        (normalizeExtractedTextWith nfcDemo ("a  b".toList)) =
      normalizeExtractedTextWith nfcDemo ("a  b".toList) ∧
    nfcDemo ['e', chr 0x301] = [chr 0xE9] :=
  ⟨normalize_idempotent_on_stable nfcDemo nfcDemo_ascii ("a  b".toList)
    (by decide) (by decide) (by decide), by decide⟩

/-! Character and identifier helper lemmas. -/

theorem chr_toNat_of_lt {n : Nat} (h : n < 0xD800) : (chr n).toNat = n := by
  unfold chr Char.ofNat
  rw [dif_pos (Or.inl h)]
  rfl

theorem lowerChar_idem (c : Char) : lowerChar (lowerChar c) = lowerChar c := by
  unfold lowerChar
  by_cases h : (65 ≤ c.toNat && c.toNat ≤ 90) = true
  · rw [if_pos h]
    simp only [Bool.and_eq_true, decide_eq_true_eq] at h
    have h2 : (chr (c.toNat + 32)).toNat = c.toNat + 32 :=
      chr_toNat_of_lt (by omega)
    have h3 : ¬((65 ≤ (chr (c.toNat + 32)).toNat &&
        (chr (c.toNat + 32)).toNat ≤ 90) = true) := by
      rw [h2]
      simp only [Bool.and_eq_true, decide_eq_true_eq]
      omega
    rw [if_neg h3]
  · rw [if_neg h, if_neg h]

theorem lowerStr_idem (s : Str) : lowerStr (lowerStr s) = lowerStr s := by
  simp only [lowerStr, List.map_map]
  exact List.map_congr_left (fun c _ => lowerChar_idem c)

theorem stripIds_attach (g : Nat → Str) (rs : List Rec) (n : Nat) :
    stripIds ⟨attachIds g rs, n⟩ = ⟨rs, n⟩ := by
  simp only [stripIds, attachIds, List.map_map, ParserResult0.mk.injEq,
    and_true]
  have h : ((fun (x : RecId) => x.core) ∘
      fun (p : Nat × Rec) => RecId.mk (g p.1) p.2) = Prod.snd := rfl
  rw [h, List.enum_map_snd]

/-- C9: in the tab-delimited row parser, authors and extracted emails are
paired positionally exactly as the spec describes: equal counts pair by
index, a single author takes every email, a single email among several
authors goes to the first author only, and otherwise pairs form by index up
to the shorter length with the remainder dropped. -/
theorem pair_positional (authors emails : List Str) :
    pairAuthorsAndEmails authors emails = pairSpec authors emails := by
  cases authors with
  | nil =>
    cases emails with
    | nil => rfl
    | cons e es => simp [pairAuthorsAndEmails, pairSpec]
  | cons a as =>
    cases emails with
    | nil => simp [pairAuthorsAndEmails, pairSpec]
    | cons e es =>
      simp only [pairAuthorsAndEmails, pairSpec, List.isEmpty_cons,
        Bool.false_or, Bool.or_self, Bool.false_eq_true, if_false]
      by_cases h1 : (a :: as).length = (e :: es).length
      · simp [h1]
      · rw [if_neg (by simpa using h1), if_neg h1]
        by_cases h2 : (a :: as).length = 1
        · simp [h2]
        · rw [if_neg (by simpa using h2), if_neg h2]
          by_cases h3 : (e :: es).length = 1
          · have h4 : 2 ≤ (a :: as).length := by
              rcases as with _ | ⟨b, bs⟩
              · exact absurd rfl h2
              · simp
            rw [if_pos (by simpa using h3), if_pos ⟨h3, h4⟩]
          · rw [if_neg (by simpa using h3), if_neg (by tauto)]

/-- C5, counterexample: two invocations of the same parser on the same input
do not return equal ParserResults field for field: the id fields, drawn from
the external unique-identifier generator, differ between invocations. -/
theorem determinism_cex :
    parseAbstractTextWithIds (fun _ => "a".toList) abSimpleInput ≠
      parseAbstractTextWithIds (fun _ => "b".toList) abSimpleInput := by
  decide

/-- C5 (amended): every parser is deterministic over its input up to the id
field: for any two draws of the identifier stream, the two invocations agree
on every record field except id, in the same order, and on totalProcessed. -/
theorem determinism_mod_ids :
    (∀ (g1 g2 : Nat → Str) (input : Str),
      stripIds (parseMedlineWithIds g1 input) =
        stripIds (parseMedlineWithIds g2 input)) ∧
    (∀ (g1 g2 : Nat → Str) (input : Str),
      stripIds (parseAbstractTextWithIds g1 input) =
        stripIds (parseAbstractTextWithIds g2 input)) ∧
    (∀ (g1 g2 : Nat → Str) (content : Str),
      stripIdsE (parseMdpiTxtWithIds g1 content) =
        stripIdsE (parseMdpiTxtWithIds g2 content)) ∧
    (∀ (g1 g2 : Nat → Str) (doc : XNode),
      stripIdsE (parseEuropePMCWithIds g1 doc) =
        stripIdsE (parseEuropePMCWithIds g2 doc)) := by
  refine ⟨?_, ?_, ?_, ?_⟩
  · intro g1 g2 input
    rw [parseMedlineWithIds, parseMedlineWithIds, stripIds_attach,
      stripIds_attach]
  · intro g1 g2 input
    rw [parseAbstractTextWithIds, parseAbstractTextWithIds, stripIds_attach,
      stripIds_attach]
  · intro g1 g2 content
    rw [parseMdpiTxtWithIds, parseMdpiTxtWithIds]
    cases parseMdpiTxt content with
    | error e => rfl
    | ok r => simp only [stripIdsE, stripIds_attach]
  · intro g1 g2 doc
    rw [parseEuropePMCWithIds, parseEuropePMCWithIds]
    cases parseEuropePMC doc with
    | error e => rfl
    | ok r => simp only [stripIdsE, stripIds_attach]

/-- C8: a missing required column in tab-delimited input raises the
descriptive missing-columns error inside the try block, but the catch-all
replaces it by the same generic failure used for any unexpected internal
failure (the empty-file failure shown alongside), so the caller cannot
distinguish the two; the XML parser does report its distinct descriptive
failure. -/
theorem error_reporting_facts :
    parseMdpiInner mdMissingColInput = .error missingColumnsMessage ∧
    parseMdpiTxt mdMissingColInput = .error genericMdpiFailure ∧
    parseMdpiTxt [] = .error genericMdpiFailure ∧
    parseEuropePMC epmcErrorDoc = .error xmlFailureMessage ∧
    missingColumnsMessage ≠ genericMdpiFailure ∧
    xmlFailureMessage ≠ xmlGenericFailure := by
  refine ⟨?_, ?_, ?_, ?_, ?_, ?_⟩ <;> decide

/-- C10: trailing physical lines whose buffered logical row never reaches the
header column count are silently discarded: they contribute no assembled row,
hence no output records and no totalProcessed increment, as the concrete
parser-level comparison shows. -/
theorem tab_trailing_incomplete_dropped :
    (∀ (expected : Nat) (st : List (List Str) × Str) (lines : List Str),
        tabNeverCompletes expected st.2 lines = true →
        (lines.foldl (tabStep expected) st).1 = st.1) ∧
    parseMdpiTxt mdTrailingInput = parseMdpiTxt mdBaseInput ∧
    parseMdpiTxt mdBaseInput =
      .ok ⟨[⟨"Paper A".toList, "Jane Doe".toList, "jane@x.com".toList,
            "MDPI".toList⟩], 1⟩ := by
  refine ⟨?_, by decide, by decide⟩
  intro expected st lines
  induction lines generalizing st with
  | nil => intro _; rfl
  | cons raw rest ih =>
    intro h
    simp only [tabNeverCompletes] at h
    rw [List.foldl_cons]
    by_cases hb : ((trimList raw).isEmpty && st.2.isEmpty) = true
    · rw [if_pos hb] at h
      have hstep : tabStep expected st raw = st := by
        rw [tabStep, if_pos hb]
      rw [hstep]
      exact ih st h
    · rw [if_neg hb] at h
      by_cases hc :
          (splitTabs (if st.2.isEmpty then raw
            else st.2 ++ '\n' :: raw)).length < expected
      · rw [if_pos hc] at h
        have hstep : tabStep expected st raw =
            (st.1, if st.2.isEmpty then raw else st.2 ++ '\n' :: raw) := by
          rw [tabStep, if_neg hb, if_pos hc]
        rw [hstep]
        exact ih (st.1, if st.2.isEmpty then raw else st.2 ++ '\n' :: raw) h
      · rw [if_neg hc] at h
        exact absurd h (by simp)

/-- Witness for C10: the general trailing-lines lemma applied at a concrete
incomplete trailing line. -/
theorem tab_trailing_incomplete_dropped_witness :
    tabNeverCompletes 3 [] ["Incomplete\tOnly".toList] = true ∧
    ((["Incomplete\tOnly".toList]).foldl (tabStep 3)
      (([] : List (List Str)), ([] : Str))).1 = ([] : List (List Str)) :=
  ⟨by decide,
   tab_trailing_incomplete_dropped.1 3 (([] : List (List Str)), ([] : Str))
     ["Incomplete\tOnly".toList] (by decide)⟩

/-! The dedup invariant development (C1). -/

theorem recKeyOf_eq_of_triple {a b : Rec} (h : recTriple a = recTriple b) :
    recKeyOf a = recKeyOf b := by
  unfold recTriple at h
  obtain ⟨h1, h2, h3⟩ :
      a.title = b.title ∧ a.author = b.author ∧ a.email = b.email := by
    simpa using h
  unfold recKeyOf recKey
  rw [h1, h2, h3]

theorem pushUnique_inv {t a e src : Str} {st : List Rec × List Str}
    (h : DedupInv st) : DedupInv (pushUnique t a e src st) := by
  rw [pushUnique]
  by_cases hk : recKey t a e ∈ st.2
  · rw [if_pos hk]
    exact h
  · rw [if_neg hk]
    obtain ⟨h1, h2⟩ := h
    constructor
    · intro r hr
      rcases List.mem_append.mp hr with h3 | h3
      · exact List.mem_cons_of_mem _ (h1 r h3)
      · have : r = ⟨t, a, e, src⟩ := by simpa using h3
        subst this
        exact List.mem_cons_self _ _
    · rw [List.pairwise_append]
      refine ⟨h2, List.pairwise_singleton _ _, ?_⟩
      intro r hr s hs
      have : s = ⟨t, a, e, src⟩ := by simpa using hs
      subst this
      intro heq
      have heq2 : recKeyOf r = recKey t a e := heq
      exact hk (heq2 ▸ h1 r hr)

theorem foldl_pres {α σ : Type} {P : σ → Prop} {f : σ → α → σ}
    (hstep : ∀ st x, P st → P (f st x)) :
    ∀ (l : List α) (st : σ), P st → P (l.foldl f st) := by
  intro l
  induction l with
  | nil => intro st h; exact h
  | cons x xs ih =>
    intro st h
    rw [List.foldl_cons]
    exact ih _ (hstep st x h)

theorem emitAssigned_inv {title : Str} {pas : List PAuthor} :
    ∀ {assoc : List (Str × List Nat)} {st : List Rec × List Str},
      DedupInv st → DedupInv (emitAssigned title pas assoc st) := by
  intro assoc
  induction assoc with
  | nil => intro st h; exact h
  | cons p rest ih =>
    intro st h
    obtain ⟨email, owners⟩ := p
    rw [emitAssigned]
    cases assignEmailToAuthor pas email owners with
    | none => exact ih h
    | some nm => exact ih (pushUnique_inv h)

theorem flushMedline_inv {st : MState} (h : MInv st) :
    MInv (flushMedline st) := by
  rw [flushMedline]
  split
  · exact h
  · dsimp only
    split
    · exact h
    · split
      · exact h
      · exact emitAssigned_inv h

theorem medlineTagStep_inv {st : MState} {line : Str} (h : MInv st) :
    MInv (medlineTagStep st line) := by
  unfold medlineTagStep
  dsimp only
  split
  · split
    · set st2 := (if !(st.titleParts.isEmpty && st.authors.isEmpty) then
          flushMedline st else st) with hst2
      have h2 : MInv st2 := by
        rw [hst2]
        split
        · exact flushMedline_inv h
        · exact h
      exact h2
    · split
      · exact h
      · split
        · split <;> exact h
        · split
          · split <;> exact h
          · exact h
  · split
    · split <;> first | exact h | (split <;> exact h)
    · split <;> exact h

theorem medlineLine_inv {st : MState} {line : Str} (h : MInv st) :
    MInv (medlineLine st line) := by
  rw [medlineLine]
  apply medlineTagStep_inv
  split
  · exact flushMedline_inv h
  · exact h

theorem pushUnique_frame {t a e src : Str} {rows0 rows : List Rec}
    {keys : List Str} :
    pushUnique t a e src (rows0 ++ rows, keys) =
      (rows0 ++ (pushUnique t a e src (rows, keys)).1,
       (pushUnique t a e src (rows, keys)).2) := by
  rw [pushUnique, pushUnique]
  dsimp only
  split
  · rfl
  · dsimp only
    rw [List.append_assoc]

theorem buildLoop_frame {title src : Str} {ca ce : List Str}
    {fb strict : Bool} :
    ∀ (emails pool : List Str) (rows0 rows : List Rec) (keys : List Str),
      buildLoop title src ca ce fb strict emails pool (rows0 ++ rows, keys) =
        (rows0 ++ (buildLoop title src ca ce fb strict emails pool
            (rows, keys)).1,
         (buildLoop title src ca ce fb strict emails pool (rows, keys)).2) := by
  intro emails
  induction emails with
  | nil => intros; rfl
  | cons email rest ih =>
    intro pool rows0 rows keys
    rw [buildLoop, buildLoop]
    cases hs : (buildStep ca ce fb strict email pool).1 with
    | none => exact ih _ _ _ _
    | some a =>
      dsimp only
      rw [pushUnique_frame]
      exact ih _ _ _ _

theorem buildLoop_inv {title src : Str} {ca ce : List Str}
    {fb strict : Bool} :
    ∀ (emails pool : List Str) (st : List Rec × List Str), DedupInv st →
      DedupInv (buildLoop title src ca ce fb strict emails pool st) := by
  intro emails
  induction emails with
  | nil => intro pool st h; exact h
  | cons email rest ih =>
    intro pool st h
    rw [buildLoop]
    apply ih
    split
    · exact h
    · exact pushUnique_inv h

theorem buildRecords_append_inv {title : Str} {authors emails : List Str}
    {src : Str} {rows : List Rec} {keys : List Str} {strict : Bool}
    (h : DedupInv (rows, keys)) :
    DedupInv (rows ++ (buildRecords title authors emails src keys strict).1,
      (buildRecords title authors emails src keys strict).2) := by
  rw [buildRecords]
  split
  · simpa using h
  · rw [← buildLoop_frame]
    rw [List.append_nil]
    exact buildLoop_inv _ _ _ h

theorem flushAbstract_inv {st : AState} (h : AInv st) :
    AInv (flushAbstract st) := by
  rw [flushAbstract]
  split
  · exact h
  · dsimp only
    unfold AInv
    dsimp only
    apply buildRecords_append_inv
    exact h

theorem abstractLine_inv {st : AState} {line : Str} (h : AInv st) :
    AInv (abstractLine st line) := by
  unfold abstractLine
  dsimp only
  split
  · exact h
  · split
    · split <;> split <;>
        first
          | exact h
          | exact flushAbstract_inv h
          | (split <;> first | exact h | exact flushAbstract_inv h)
    · split
      · split <;> first | exact h | exact flushAbstract_inv h
      · split
        · exact flushAbstract_inv h
        · split <;> exact h

theorem mdpiRow_inv {ti ai ei : Nat} {st : (List Rec × List Str) × Nat}
    {row : List Str} (h : DedupInv st.1) :
    DedupInv (mdpiRow ti ai ei st row).1 := by
  rw [mdpiRow]
  dsimp only
  refine foldl_pres ?_ _ _ h
  intro st2 pair h2
  dsimp only
  split
  · exact h2
  · exact pushUnique_inv h2

theorem epmcEmitAuthor_inv {title : Str} {a : XNode} {st : List Rec × List Str}
    (h : DedupInv st) : DedupInv (epmcEmitAuthor title a st) := by
  rw [epmcEmitAuthor]
  dsimp only
  split
  · split
    · exact h
    · refine foldl_pres ?_ _ _ h
      intro st2 aff h2
      refine foldl_pres ?_ _ _ h2
      intro st3 email h3
      exact pushUnique_inv h3
  · exact h

theorem epmcEmitContainer_inv {c : XNode} {st : List Rec × List Str}
    (h : DedupInv st) : DedupInv (epmcEmitContainer c st) := by
  rw [epmcEmitContainer]
  dsimp only
  split
  · exact h
  · split
    · exact h
    · exact foldl_pres (fun st2 a h2 => epmcEmitAuthor_inv h2) _ _ h

theorem dedupInv_nodup {st : List Rec × List Str} (h : DedupInv st) :
    (st.1.map recTriple).Nodup := by
  rw [List.Nodup, List.pairwise_map]
  refine h.2.imp ?_
  intro a b hne heq
  exact hne (recKeyOf_eq_of_triple heq)

theorem dedupInv_nil : DedupInv ([], []) :=
  ⟨fun r hr => absurd hr (List.not_mem_nil r), List.Pairwise.nil⟩

/-- C1: within one parse invocation of each of the four parsers, no two
output records share the composite key (title, author, email). -/
theorem dedup_invariant_all_parsers :
    (∀ input : Str, ((parseMedline input).records.map recTriple).Nodup) ∧
    (∀ input : Str, ((parseAbstractText input).records.map recTriple).Nodup) ∧
    (∀ (content : Str) (r : ParserResult0), parseMdpiTxt content = .ok r →
      (r.records.map recTriple).Nodup) ∧
    (∀ (doc : XNode) (r : ParserResult0), parseEuropePMC doc = .ok r →
      (r.records.map recTriple).Nodup) := by
  refine ⟨?_, ?_, ?_, ?_⟩
  · intro input
    have h0 : MInv mstate0 := dedupInv_nil
    have h1 : MInv ((toLines input).foldl medlineLine mstate0) :=
      foldl_pres (fun st line hs => medlineLine_inv hs) _ _ h0
    exact dedupInv_nodup (flushMedline_inv h1)
  · intro input
    have h0 : AInv astate0 := dedupInv_nil
    have h1 : AInv ((toLinesNoBom input).foldl abstractLine astate0) :=
      foldl_pres (fun st line hs => abstractLine_inv hs) _ _ h0
    exact dedupInv_nodup (flushAbstract_inv h1)
  · intro content r h
    rw [parseMdpiTxt] at h
    cases hinner : parseMdpiInner content with
    | error e =>
      rw [hinner] at h
      exact absurd h (by simp)
    | ok r2 =>
      rw [hinner] at h
      have hr : r2 = r := by simpa using h
      subst hr
      rw [parseMdpiInner] at hinner
      cases htr : parseTabDelimitedRows content with
      | error e =>
        rw [htr] at hinner
        exact absurd hinner (by simp)
      | ok tr =>
        rw [htr] at hinner
        dsimp only at hinner
        cases hidx : mdpiIndices tr.headers with
        | none =>
          rw [hidx] at hinner
          exact absurd hinner (by simp)
        | some idx =>
          rw [hidx] at hinner
          dsimp only at hinner
          have hr2 : ParserResult0.mk
              (tr.rows.foldl (mdpiRow idx.2.2 idx.1 idx.2.1)
                (([], []), 0)).1.1
              (tr.rows.foldl (mdpiRow idx.2.2 idx.1 idx.2.1)
                (([], []), 0)).2 = r2 := by
            simpa using hinner
          rw [← hr2]
          dsimp only
          refine dedupInv_nodup ?_
          refine foldl_pres
            (P := fun (s : (List Rec × List Str) × Nat) => DedupInv s.1)
            ?_ _ _ dedupInv_nil
          intro st2 row h2
          exact mdpiRow_inv h2
  · intro doc r h
    rw [parseEuropePMC] at h
    split at h
    · exact absurd h (by simp)
    · dsimp only at h
      have hr : ParserResult0.mk
          ((epmcContainers doc).foldl (fun st c => epmcEmitContainer c st)
            ([], [])).1 (epmcContainers doc).length = r := by
        simpa using h
      rw [← hr]
      dsimp only
      refine dedupInv_nodup
        (foldl_pres (fun st2 c h2 => epmcEmitContainer_inv h2) _ _ ?_)
      exact dedupInv_nil

/-- Witness for C1: the parser-level guarantees at concrete inputs, with the
success hypotheses of the fallible parsers discharged. -/
theorem dedup_invariant_all_parsers_witness :
    ((parseMedline medScenarioInput).records.map recTriple).Nodup ∧
    ((parseAbstractText abSimpleInput).records.map recTriple).Nodup ∧
    (∃ r, parseMdpiTxt mdScenarioInput = .ok r ∧
      (r.records.map recTriple).Nodup) ∧
    (∃ r, parseEuropePMC epmcScenarioDoc = .ok r ∧
      (r.records.map recTriple).Nodup) :=
  ⟨dedup_invariant_all_parsers.1 medScenarioInput,
   dedup_invariant_all_parsers.2.1 abSimpleInput,
   ⟨_, rfl, dedup_invariant_all_parsers.2.2.1 mdScenarioInput _ rfl⟩,
   ⟨_, rfl, dedup_invariant_all_parsers.2.2.2 epmcScenarioDoc _ rfl⟩⟩

theorem modifyLast_isEmpty {α : Type} (f : α → α) (l : List α) :
    (modifyLast f l).isEmpty = l.isEmpty := by
  cases l with
  | nil => rfl
  | cons x xs => cases xs <;> rfl

theorem modifyLast_ne_nil {α : Type} (f : α → α) {l : List α} (h : l ≠ []) :
    modifyLast f l ≠ [] := by
  cases l with
  | nil => exact absurd rfl h
  | cons x xs => cases xs <;> simp [modifyLast]

theorem foldl_rel {α σ τ : Type} {R : σ → τ → Prop} {f : σ → α → σ}
    {g : τ → α → τ} (hstep : ∀ s t x, R s t → R (f s x) (g t x)) :
    ∀ (l : List α) (s : σ) (t : τ), R s t → R (l.foldl f s) (l.foldl g t) := by
  intro l
  induction l with
  | nil => intro s t h; exact h
  | cons x xs ih =>
    intro s t h
    rw [List.foldl_cons, List.foldl_cons]
    exact ih _ _ (hstep s t x h)

theorem flush_rel {st : MState} {sk : MSkel} (h : MRel st sk) :
    MRel (flushMedline st) (flushSkel sk) := by
  obtain ⟨ht, htne, hane, htag, hcur⟩ := h
  rw [flushMedline, flushSkel]
  have hcond : (!sk.titleNE && !sk.authorsNE) =
      (st.titleParts.isEmpty && st.authors.isEmpty) := by
    rw [htne, hane]
    simp
  rw [hcond]
  by_cases hc : (st.titleParts.isEmpty && st.authors.isEmpty) = true
  · rw [if_pos hc, if_pos hc]
    exact ⟨ht, htne, hane, htag, hcur⟩
  · rw [if_neg hc, if_neg hc]
    dsimp only
    split
    · exact ⟨by simp [ht], by simp, by simp, rfl,
        by intro hx; exact absurd hx (by simp)⟩
    · split
      · exact ⟨by simp [ht], by simp, by simp, rfl,
          by intro hx; exact absurd hx (by simp)⟩
      · exact ⟨by simp [ht], by simp, by simp, rfl,
          by intro hx; exact absurd hx (by simp)⟩

theorem isEmpty_false_of_ne {α : Type} {l : List α} (h : l ≠ []) :
    l.isEmpty = false := by
  cases l with
  | nil => exact absurd rfl h
  | cons x xs => rfl

theorem tagStep_rel {st : MState} {sk : MSkel} {line : Str} (h : MRel st sk) :
    MRel (medlineTagStep st line) (skelTagStep sk line) := by
  obtain ⟨ht, htne, hane, htag, hcur⟩ := h
  rw [medlineTagStep, skelTagStep]
  cases htm : tagMatchOf line with
  | none =>
    dsimp only
    split
    · split <;> (try split) <;>
        first
          | exact ⟨ht, htne, hane, htag, hcur⟩
          | (refine ⟨ht, ?_, hane, htag, hcur⟩
             rw [modifyLast_isEmpty]
             exact htne)
          | (refine ⟨ht, htne, ?_, htag, ?_⟩ <;>
              first
                | (rw [modifyLast_isEmpty]; exact hane)
                | (intro hx; exact modifyLast_ne_nil _ (hcur hx)))
    · split <;>
        first
          | exact ⟨ht, htne, hane, htag, hcur⟩
          | (refine ⟨ht, htne, ?_, htag, ?_⟩ <;>
              first
                | (rw [modifyLast_isEmpty]; exact hane)
                | (intro hx; exact modifyLast_ne_nil _ (hcur hx)))
  | some p =>
    obtain ⟨tag, value⟩ := p
    dsimp only
    by_cases h1 : tag = "TI".toList
    · rw [if_pos h1, if_pos h1]
      have hcond2 : (sk.titleNE || sk.authorsNE) =
          !(st.titleParts.isEmpty && st.authors.isEmpty) := by
        rw [htne, hane]
        simp
      rw [hcond2]
      by_cases h2 : (!(st.titleParts.isEmpty && st.authors.isEmpty)) = true
      · rw [if_pos h2, if_pos h2]
        obtain ⟨ht', htne', hane', htag', hcur'⟩ :=
          @flush_rel st sk ⟨ht, htne, hane, htag, hcur⟩
        exact ⟨ht', by simp, hane', rfl, hcur'⟩
      · rw [if_neg h2, if_neg h2]
        exact ⟨ht, by simp, hane, rfl, hcur⟩
    · rw [if_neg h1, if_neg h1]
      by_cases h2 : tag = "FAU".toList
      · rw [if_pos h2, if_pos h2]
        exact ⟨ht, htne, by simp, rfl, by intro hx; simp⟩
      · rw [if_neg h2, if_neg h2]
        by_cases h3 : tag = "AU".toList
        · rw [if_pos h3, if_pos h3]
          by_cases h4 : st.hasCurrent = true
          · rw [if_pos h4]
            have hne := hcur h4
            refine ⟨ht, htne, ?_, rfl, ?_⟩
            · rw [modifyLast_isEmpty, isEmpty_false_of_ne hne]
              rfl
            · intro hx
              exact modifyLast_ne_nil _ hne
          · rw [if_neg h4]
            exact ⟨ht, htne, by simp, rfl, by intro hx; simp⟩
        · rw [if_neg h3, if_neg h3]
          by_cases h5 : tag = "AD".toList
          · rw [if_pos h5, if_pos h5]
            by_cases h6 : st.hasCurrent = true
            · rw [if_pos h6]
              have hne := hcur h6
              refine ⟨ht, htne, ?_, rfl, ?_⟩
              · rw [modifyLast_isEmpty]
                exact hane
              · intro hx
                exact modifyLast_ne_nil _ hne
            · rw [if_neg h6]
              exact ⟨ht, htne, hane, rfl, hcur⟩
          · rw [if_neg h5, if_neg h5]
            exact ⟨ht, htne, hane, rfl, hcur⟩

theorem aflush_rel {st : AState} {sk : ASkel} (h : ARel st sk) :
    ARel (flushAbstract st) (flushASkel sk) := by
  obtain ⟨ht, h1, h2, h3, h4⟩ := h
  rw [flushAbstract, flushASkel]
  have hcond : (!aSkelContent sk) =
      (st.titleParts.isEmpty && st.authorLines.isEmpty &&
        st.affiliationLines.isEmpty) := by
    rw [aSkelContent, h1, h2, h3]
    simp
  rw [hcond]
  by_cases hc : (st.titleParts.isEmpty && st.authorLines.isEmpty &&
      st.affiliationLines.isEmpty) = true
  · rw [if_pos hc, if_pos hc]
    exact ⟨ht, h1, h2, h3, h4⟩
  · rw [if_neg hc, if_neg hc]
    dsimp only
    exact ⟨by simp [ht], by simp, by simp, by simp, rfl⟩

theorem aline_rel {st : AState} {sk : ASkel} {line : Str} (h : ARel st sk) :
    ARel (abstractLine st line) (askelLine sk line) := by
  obtain ⟨ht, h1, h2, h3, h4⟩ := h
  rw [abstractLine, askelLine]
  dsimp only
  by_cases he : (trimList line).isEmpty = true
  · rw [if_pos he, if_pos he]
    exact ⟨ht, h1, h2, h3, h4⟩
  · rw [if_neg he, if_neg he]
    cases hih : findInlineHeading (trimList line) with
    | some p =>
      obtain ⟨mapped, value⟩ := p
      dsimp only
      have hcont : (decide (mapped = some ASection.title) && aSkelContent sk) =
          (decide (mapped = some ASection.title) && aHasContent st) := by
        rw [aSkelContent, aHasContent, h1, h2, h3]
        simp
      rw [hcont]
      by_cases hfl : (decide (mapped = some ASection.title) &&
          aHasContent st) = true
      · rw [if_pos hfl, if_pos hfl]
        obtain ⟨ht', h1', h2', h3', h4'⟩ :=
          @aflush_rel st sk ⟨ht, h1, h2, h3, h4⟩
        by_cases hv : value.isEmpty = true
        · rw [if_pos hv, if_pos hv]
          exact ⟨ht', h1', h2', h3', rfl⟩
        · rw [if_neg hv, if_neg hv]
          cases mapped with
          | none => exact ⟨ht', h1', h2', h3', rfl⟩
          | some sec =>
            cases sec with
            | title => exact ⟨ht', by simp, h2', h3', rfl⟩
            | authors => exact ⟨ht', h1', by simp, h3', rfl⟩
            | affiliations => exact ⟨ht', h1', h2', by simp, rfl⟩
      · rw [if_neg hfl, if_neg hfl]
        by_cases hv : value.isEmpty = true
        · rw [if_pos hv, if_pos hv]
          exact ⟨ht, h1, h2, h3, rfl⟩
        · rw [if_neg hv, if_neg hv]
          cases mapped with
          | none => exact ⟨ht, h1, h2, h3, rfl⟩
          | some sec =>
            cases sec with
            | title => exact ⟨ht, by simp, h2, h3, rfl⟩
            | authors => exact ⟨ht, h1, by simp, h3, rfl⟩
            | affiliations => exact ⟨ht, h1, h2, by simp, rfl⟩
    | none =>
      dsimp only
      cases hsh : headingMapLookup (lowerStr (dropColonEnd (trimList line))) with
      | some sec =>
        dsimp only
        have hcond2 : (decide (sec = ASection.title) && aSkelContent sk) =
            (decide (sec = ASection.title) && aHasContent st) := by
          rw [aSkelContent, aHasContent, h1, h2, h3]
          simp
        rw [hcond2]
        by_cases hfl : (decide (sec = ASection.title) && aHasContent st) = true
        · rw [if_pos hfl, if_pos hfl]
          obtain ⟨ht', h1', h2', h3', h4'⟩ :=
            @aflush_rel st sk ⟨ht, h1, h2, h3, h4⟩
          exact ⟨ht', h1', h2', h3', rfl⟩
        · rw [if_neg hfl, if_neg hfl]
          exact ⟨ht, h1, h2, h3, rfl⟩
      | none =>
        dsimp only
        have hcond3 : (isPmidLine (trimList line) && aSkelContent sk) =
            (isPmidLine (trimList line) && aHasContent st) := by
          rw [aSkelContent, aHasContent, h1, h2, h3]
          simp
        rw [hcond3]
        by_cases hp : (isPmidLine (trimList line) && aHasContent st) = true
        · rw [if_pos hp, if_pos hp]
          exact aflush_rel ⟨ht, h1, h2, h3, h4⟩
        · rw [if_neg hp, if_neg hp]
          rw [h4]
          cases hcs : st.currentSection with
          | none =>
            dsimp only
            rw [hcs] at h4
            exact ⟨ht, h1, h2, h3, h4⟩
          | some sec =>
            cases sec with
            | title =>
              dsimp only
              exact ⟨ht, by simp, h2, h3, rfl⟩
            | authors =>
              dsimp only
              exact ⟨ht, h1, by simp, h3, rfl⟩
            | affiliations =>
              dsimp only
              exact ⟨ht, h1, h2, by simp, rfl⟩

theorem line_rel {st : MState} {sk : MSkel} {line : Str} (h : MRel st sk) :
    MRel (medlineLine st line) (skelLine sk line) := by
  obtain ⟨ht, htne, hane, htag, hcur⟩ := h
  rw [medlineLine, skelLine]
  have hcond : (("PMID-".toList).isPrefixOf line &&
        (sk.titleNE || sk.authorsNE)) =
      (("PMID-".toList).isPrefixOf line &&
        !(st.titleParts.isEmpty && st.authors.isEmpty)) := by
    rw [htne, hane]
    simp
  rw [hcond]
  by_cases hc : (("PMID-".toList).isPrefixOf line &&
      !(st.titleParts.isEmpty && st.authors.isEmpty)) = true
  · rw [if_pos hc, if_pos hc]
    exact tagStep_rel (flush_rel ⟨ht, htne, hane, htag, hcur⟩)
  · rw [if_neg hc, if_neg hc]
    exact tagStep_rel ⟨ht, htne, hane, htag, hcur⟩

theorem medline_total_eq (input : Str) :
    (parseMedline input).totalProcessed = medlineUnits input := by
  have hinit : MRel mstate0 ⟨0, false, false, none⟩ :=
    ⟨rfl, rfl, rfl, rfl, fun hx => absurd hx (by decide)⟩
  have h : MRel ((toLines input).foldl medlineLine mstate0)
      ((toLines input).foldl skelLine ⟨0, false, false, none⟩) :=
    foldl_rel (fun s t x hr => @line_rel s t x hr) (toLines input) _ _ hinit
  have h2 := flush_rel h
  unfold parseMedline medlineUnits
  dsimp only
  exact h2.1.symm

theorem abstract_total_eq (input : Str) :
    (parseAbstractText input).totalProcessed = abstractUnits input := by
  have hinit : ARel astate0 ⟨0, false, false, false, none⟩ :=
    ⟨rfl, rfl, rfl, rfl, rfl⟩
  have h : ARel ((toLinesNoBom input).foldl abstractLine astate0)
      ((toLinesNoBom input).foldl askelLine ⟨0, false, false, false, none⟩) :=
    foldl_rel (fun s t x hr => @aline_rel s t x hr) (toLinesNoBom input) _ _ hinit
  have h2 := aflush_rel h
  unfold parseAbstractText abstractUnits
  dsimp only
  exact h2.1.symm

theorem mdpi_fold_total (ti ai ei : Nat) (rows : List (List Str)) :
    ∀ st : (List Rec × List Str) × Nat,
      (rows.foldl (mdpiRow ti ai ei) st).2 = st.2 + rows.length := by
  induction rows with
  | nil => intro st; simp
  | cons r rs ih =>
    intro st
    rw [List.foldl_cons, ih]
    have h2 : (mdpiRow ti ai ei st r).2 = st.2 + 1 := rfl
    rw [h2]
    simp only [List.length_cons]
    omega

theorem mdpi_total_eq (content : Str) (r : ParserResult0)
    (h : parseMdpiTxt content = .ok r) :
    ∃ tr, parseTabDelimitedRows content = .ok tr ∧
      r.totalProcessed = tr.rows.length := by
  rw [parseMdpiTxt] at h
  cases hinner : parseMdpiInner content with
  | error e =>
    rw [hinner] at h
    exact absurd h (by simp)
  | ok r2 =>
    rw [hinner] at h
    have hr : r2 = r := by simpa using h
    subst hr
    rw [parseMdpiInner] at hinner
    cases htr : parseTabDelimitedRows content with
    | error e =>
      rw [htr] at hinner
      exact absurd hinner (by simp)
    | ok tr =>
      rw [htr] at hinner
      dsimp only at hinner
      cases hidx : mdpiIndices tr.headers with
      | none =>
        rw [hidx] at hinner
        exact absurd hinner (by simp)
      | some idx =>
        rw [hidx] at hinner
        dsimp only at hinner
        have hr2 : ParserResult0.mk
            (tr.rows.foldl (mdpiRow idx.2.2 idx.1 idx.2.1)
              (([], []), 0)).1.1
            (tr.rows.foldl (mdpiRow idx.2.2 idx.1 idx.2.1)
              (([], []), 0)).2 = r2 := by
          simpa using hinner
        refine ⟨tr, rfl, ?_⟩
        rw [← hr2]
        dsimp only
        rw [mdpi_fold_total]
        simp

theorem epmc_total_eq (doc : XNode) (r : ParserResult0)
    (h : parseEuropePMC doc = .ok r) :
    r.totalProcessed = (epmcContainers doc).length := by
  rw [parseEuropePMC] at h
  split at h
  · exact absurd h (by simp)
  · dsimp only at h
    have hr : ParserResult0.mk
        ((epmcContainers doc).foldl (fun st c => epmcEmitContainer c st)
          ([], [])).1 (epmcContainers doc).length = r := by
      simpa using h
    rw [← hr]

/-- C3: every parser's returned totalProcessed equals the number of detected
source-level record units — MEDLINE record units for the tagged and the
free-text parser, logical spreadsheet rows for the tab-delimited parser, XML
container nodes for the XML parser — counting also units that produced zero
output records: a MEDLINE record discarded for an empty title or for no
usable author still counts one unit, and an XML container with no author
descendant still counts one container. -/
theorem total_processed_counts_units :
    (∀ input : Str,
        (parseMedline input).totalProcessed = medlineUnits input) ∧
    (∀ input : Str,
        (parseAbstractText input).totalProcessed = abstractUnits input) ∧
    (∀ (content : Str) (r : ParserResult0), parseMdpiTxt content = .ok r →
        ∃ tr, parseTabDelimitedRows content = .ok tr ∧
          r.totalProcessed = tr.rows.length) ∧
    (∀ (doc : XNode) (r : ParserResult0), parseEuropePMC doc = .ok r →
        r.totalProcessed = (epmcContainers doc).length) ∧
    parseMedline emptyTitleUnitInput = ⟨[], 1⟩ ∧
    parseMedline noAuthorUnitInput = ⟨[], 1⟩ ∧
    parseEuropePMC epmcNoAuthorDoc = .ok ⟨[], 2⟩ :=
  ⟨medline_total_eq, abstract_total_eq, mdpi_total_eq, epmc_total_eq,
   by decide, by decide, by decide⟩

/-- Witness for C3: the fallible parsers' clauses at concrete inputs, their
success hypotheses discharged there. -/
theorem total_processed_counts_units_witness :
    (∃ tr, parseTabDelimitedRows mdHeaderOnlyInput = .ok tr ∧
      (ParserResult0.mk [] 0).totalProcessed = tr.rows.length) ∧
    (ParserResult0.mk [] 2).totalProcessed =
      (epmcContainers epmcNoAuthorDoc).length :=
  ⟨total_processed_counts_units.2.2.1 mdHeaderOnlyInput ⟨[], 0⟩ (by decide),
   total_processed_counts_units.2.2.2.1 epmcNoAuthorDoc ⟨[], 2⟩ (by decide)⟩

theorem assign_owner_when_other_zero (A B : PAuthor) (email : Str)
    (hA : scoreAuthorEmailMatch email A.name A.shortNames = 0) :
    assignEmailToAuthor [A, B] email [1] = some B.name := by
  unfold assignEmailToAuthor
  have hB : (0 : Int) ≤
      (scoreAuthorEmailMatch email B.name B.shortNames : Int) :=
    Int.natCast_nonneg _
  have hpos : (0 : Int) <
      (scoreAuthorEmailMatch email B.name B.shortNames : Int) + 2 := by omega
  simp only [List.enum, List.enumFrom, List.foldl, hA]
  norm_num
  rw [if_pos hpos]
  simp [hpos]

theorem assign_capture_when_dominant (A B : PAuthor) (email : Str)
    (hgt : (scoreAuthorEmailMatch email B.name B.shortNames : Int) + 2 <
      (scoreAuthorEmailMatch email A.name A.shortNames : Int)) :
    assignEmailToAuthor [A, B] email [1] = some A.name := by
  unfold assignEmailToAuthor
  have h0 : (0 : Int) ≤
      (scoreAuthorEmailMatch email B.name B.shortNames : Int) :=
    Int.natCast_nonneg _
  have hApos : (0 : Int) <
      (scoreAuthorEmailMatch email A.name A.shortNames : Int) := by omega
  have hlt : (-1 : Int) <
      (scoreAuthorEmailMatch email A.name A.shortNames : Int) := by omega
  have hnlt : ¬ ((scoreAuthorEmailMatch email A.name A.shortNames : Int) <
      (scoreAuthorEmailMatch email B.name B.shortNames : Int) + 2) := by omega
  simp only [List.enum, List.enumFrom, List.foldl]
  norm_num
  rw [if_pos hlt, if_neg hnlt]
  simp [hApos]

set_option maxRecDepth 4000 in
/-- C4, counterexample: a record with exactly two authors, where the one email
of the whole record follows an "electronic address" marker inside the second
author's affiliation block; the parser outputs the email attributed to the
FIRST author, whose surname matches the email's local part, not to the owning
second author — the claimed "author B only, never author A" fails. -/
theorem strict_drop_cex :
    (parseMedline strictDropCexInput).records =
      [⟨("Paper T").toList, ("John Smith").toList,
        ("smith@uni.edu").toList, ("PubMed").toList⟩] := by decide

theorem buildStep_strict_drops {ca ce : List Str} {email : Str}
    {pool : List Str} (hlen : ca.length ≠ 1)
    (hm : findAuthorMatch email ca (some pool) = none) :
    (buildStep ca ce false true email pool).1 = none ∧
    (buildStep ca ce false false email pool).1 = some (ca.headD []) := by
  constructor
  · rw [buildStep]
    dsimp only
    rw [hm]
    dsimp only
    rw [if_neg (by decide : ¬ ((false : Bool) = true))]
    dsimp only
    rw [if_neg hlen, if_neg (by decide : ¬ ((!true : Bool) = true))]
  · rw [buildStep]
    dsimp only
    rw [hm]
    dsimp only
    rw [if_neg (by decide : ¬ ((false : Bool) = true))]
    dsimp only
    rw [if_neg hlen, if_pos (by decide : ((!false : Bool) = true))]

set_option maxRecDepth 4000 in
/-- C4 (amended): the claim splits across the two assignment paths.  In the
tagged MEDLINE path, electronic-address ownership is only a +2 scoring bonus
in a comparison against ALL of the record's authors: the owned email does go
to the owning second author whenever the first author has zero name affinity
to it, but an author whose affinity exceeds the owner's bonused score
captures the email instead of the owner.  The drop half of the claim lives
in the free-text path: strict matching (set exactly when the emails came
from electronic-address fields) suppresses the first-author default, so with
two or more authors an email matching no author produces no record at all,
while without strict matching the same email defaults to the first author;
and an owned electronic-address email whose local part matches the owning
second author is emitted for that author only. -/
theorem strict_drop_amended :
    (∀ (A B : PAuthor) (email : Str),
        scoreAuthorEmailMatch email A.name A.shortNames = 0 →
        assignEmailToAuthor [A, B] email [1] = some B.name) ∧
    (∀ (A B : PAuthor) (email : Str),
        (scoreAuthorEmailMatch email B.name B.shortNames : Int) + 2 <
          (scoreAuthorEmailMatch email A.name A.shortNames : Int) →
        assignEmailToAuthor [A, B] email [1] = some A.name) ∧
    (∀ (ca ce : List Str) (email : Str) (pool : List Str),
        ca.length ≠ 1 →
        findAuthorMatch email ca (some pool) = none →
        (buildStep ca ce false true email pool).1 = none ∧
        (buildStep ca ce false false email pool).1 = some (ca.headD [])) ∧
    parseAbstractText strictDropDropInput = ⟨[], 1⟩ ∧
    parseAbstractText nonStrictDefaultInput =
      ⟨[⟨("Paper T").toList, ("John Smith").toList,
        ("zzz@other.org").toList, ("PubMed").toList⟩], 1⟩ ∧
    (parseMedline strictDropPosInput).records =
      [⟨("Paper T").toList, ("Mary Jones").toList,
        ("jones@uni.edu").toList, ("PubMed").toList⟩] :=
  ⟨fun A B email hA => assign_owner_when_other_zero A B email hA,
   fun A B email hgt => assign_capture_when_dominant A B email hgt,
   fun _ _ _ _ hlen hm => buildStep_strict_drops hlen hm,
   by decide, by decide, by decide⟩

/-- Witness for C4 (amended): the two assignment clauses and the strict-drop
clause at concrete authors, emails and pools, the scoring, author-count and
no-match hypotheses discharged there. -/
theorem strict_drop_amended_witness :
    assignEmailToAuthor
        [⟨("Mary Jones").toList, [], []⟩, ⟨("John Smith").toList, [], []⟩]
        (("jsmith@uni.edu").toList) [1] =
      some (("John Smith").toList) ∧
    assignEmailToAuthor
        [⟨("John Smith").toList, [], []⟩, ⟨("Mary Jones").toList, [], []⟩]
        (("jsmith@uni.edu").toList) [1] =
      some (("John Smith").toList) ∧
    ((buildStep [("John Smith").toList, ("Mary Jones").toList] []
        false true (("zzz@other.org").toList)
        [("John Smith").toList, ("Mary Jones").toList]).1 = none ∧
      (buildStep [("John Smith").toList, ("Mary Jones").toList] []
        false false (("zzz@other.org").toList)
        [("John Smith").toList, ("Mary Jones").toList]).1 =
        some ([("John Smith").toList, ("Mary Jones").toList].headD [])) :=
  ⟨strict_drop_amended.1 ⟨("Mary Jones").toList, [], []⟩
      ⟨("John Smith").toList, [], []⟩ (("jsmith@uni.edu").toList) (by decide),
   strict_drop_amended.2.1 ⟨("John Smith").toList, [], []⟩
      ⟨("Mary Jones").toList, [], []⟩ (("jsmith@uni.edu").toList) (by decide),
   strict_drop_amended.2.2.1 [("John Smith").toList, ("Mary Jones").toList]
      [] (("zzz@other.org").toList)
      [("John Smith").toList, ("Mary Jones").toList] (by decide) (by decide)⟩

theorem dedupeAux_spec (l : List Str) :
    ∀ seen : List Str, (dedupeAux seen l).Nodup ∧
      ∀ x ∈ dedupeAux seen l, x ∉ seen := by
  induction l with
  | nil =>
    intro seen
    exact ⟨List.nodup_nil, by intro x hx; cases hx⟩
  | cons y ys ih =>
    intro seen
    by_cases hy : y ∈ seen
    · rw [dedupeAux, if_pos hy]
      exact ih seen
    · rw [dedupeAux, if_neg hy]
      obtain ⟨hnd, hns⟩ := ih (y :: seen)
      refine ⟨List.nodup_cons.mpr
        ⟨fun hx => hns y hx (List.mem_cons_self y seen), hnd⟩, ?_⟩
      intro x hx hxseen
      rcases List.mem_cons.mp hx with rfl | hx2
      · exact hy hxseen
      · exact hns x hx2 (List.mem_cons_of_mem _ hxseen)

theorem dedupeList_nodup (l : List Str) : (dedupeList l).Nodup :=
  (dedupeAux_spec l []).1

theorem famFold_spec (email : Str) (pool : List Str) :
    ∀ (l : List Str) (acc : Option Str × Int),
      (acc.1 = none ∧ acc.2 = -1 ∨
        ∃ a, acc.1 = some a ∧ a ∈ pool ∧
          (scoreAuthorEmailMatch email a [] : Int) = acc.2) →
      ((l.foldl (famStep email (some pool)) acc).1 = none ∧
          (l.foldl (famStep email (some pool)) acc).2 = -1 ∨
        ∃ a, (l.foldl (famStep email (some pool)) acc).1 = some a ∧ a ∈ pool ∧
          (scoreAuthorEmailMatch email a [] : Int) =
            (l.foldl (famStep email (some pool)) acc).2) ∧
      acc.2 ≤ (l.foldl (famStep email (some pool)) acc).2 ∧
      ∀ b ∈ l, b ∈ pool →
        (scoreAuthorEmailMatch email b [] : Int) ≤
          (l.foldl (famStep email (some pool)) acc).2 := by
  intro l
  induction l with
  | nil =>
    intro acc hacc
    exact ⟨hacc, le_refl _, by intro b hb; cases hb⟩
  | cons x xs ih =>
    intro acc hacc
    rw [List.foldl_cons]
    by_cases hmem : x ∈ pool
    · have hstep : famStep email (some pool) acc x =
          if acc.2 < (scoreAuthorEmailMatch email x [] : Int)
          then (some x, (scoreAuthorEmailMatch email x [] : Int)) else acc := by
        rw [famStep]
        dsimp only
        rw [if_pos (decide_eq_true hmem)]
      rw [hstep]
      by_cases hlt : acc.2 < (scoreAuthorEmailMatch email x [] : Int)
      · rw [if_pos hlt]
        obtain ⟨hP, hmono, hbnd⟩ :=
          ih ((some x, (scoreAuthorEmailMatch email x [] : Int)))
            (Or.inr ⟨x, rfl, hmem, rfl⟩)
        refine ⟨hP, le_trans (le_of_lt hlt) hmono, ?_⟩
        intro b hb hbp
        rcases List.mem_cons.mp hb with rfl | hb2
        · exact hmono
        · exact hbnd b hb2 hbp
      · rw [if_neg hlt]
        obtain ⟨hP, hmono, hbnd⟩ := ih acc hacc
        refine ⟨hP, hmono, ?_⟩
        intro b hb hbp
        rcases List.mem_cons.mp hb with rfl | hb2
        · exact le_trans (not_lt.mp hlt) hmono
        · exact hbnd b hb2 hbp
    · have hstep : famStep email (some pool) acc x = acc := by
        rw [famStep]
        dsimp only
        rw [if_neg (by simp [hmem])]
      rw [hstep]
      obtain ⟨hP, hmono, hbnd⟩ := ih acc hacc
      refine ⟨hP, hmono, ?_⟩
      intro b hb hbp
      rcases List.mem_cons.mp hb with rfl | hb2
      · exact absurd hbp hmem
      · exact hbnd b hb2 hbp

theorem findAuthorMatch_spec {email : Str} {authors pool : List Str} {a : Str}
    (h : findAuthorMatch email authors (some pool) = some a) :
    a ∈ pool ∧ 0 < scoreAuthorEmailMatch email a [] ∧
      ∀ b ∈ authors, b ∈ pool →
        scoreAuthorEmailMatch email b [] ≤ scoreAuthorEmailMatch email a [] := by
  obtain ⟨hP, hmono, hbnd⟩ :=
    famFold_spec email pool authors (none, -1) (Or.inl ⟨rfl, rfl⟩)
  rw [findAuthorMatch] at h
  by_cases hpos :
      (0 : Int) < (authors.foldl (famStep email (some pool)) (none, -1)).2
  · rw [if_pos hpos] at h
    rcases hP with ⟨h1, h2⟩ | ⟨c, hc1, hc2, hc3⟩
    · rw [h2] at hpos
      exact absurd hpos (by decide)
    · rw [hc1] at h
      injection h with h
      subst h
      rw [← hc3] at hpos hbnd
      refine ⟨hc2, ?_, ?_⟩
      · exact_mod_cast hpos
      · intro b hb hbp
        exact_mod_cast hbnd b hb hbp
  · rw [if_neg hpos] at h
    exact absurd h (by simp)

theorem buildStep_matched {ca ce : List Str} {fb strict : Bool} {email : Str}
    {pool : List Str} {a : Str}
    (hmatch : findAuthorMatch email ca (some pool) = some a) :
    buildStep ca ce fb strict email pool = (some a, pool.erase a) := by
  have ha : a ∈ pool := (findAuthorMatch_spec hmatch).1
  rw [buildStep]
  dsimp only
  rw [hmatch]
  dsimp only
  rw [if_pos ha]

theorem buildStep_strict_cases (ca ce : List Str) (fb : Bool) (email : Str)
    (pool : List Str) (hlen : ca.length ≠ 1) :
    buildStep ca ce fb true email pool = (none, pool) ∨
      ∃ a, a ∈ pool ∧
        buildStep ca ce fb true email pool = (some a, pool.erase a) := by
  cases hm : findAuthorMatch email ca (some pool) with
  | some a =>
    exact Or.inr ⟨a, (findAuthorMatch_spec hm).1, buildStep_matched hm⟩
  | none =>
    rw [buildStep]
    dsimp only
    rw [hm]
    dsimp only
    cases hfb : fb with
    | false =>
      rw [if_neg (by decide : ¬ ((false : Bool) = true))]
      dsimp only
      rw [if_neg hlen, if_neg (by decide : ¬ ((!true : Bool) = true))]
      exact Or.inl rfl
    | true =>
      rw [if_pos rfl]
      cases hget : ca.get? (ce.indexOf email) with
      | some ia =>
        dsimp only
        by_cases hcond : (!ia.isEmpty && decide (ia ∈ pool)) = true
        · rw [if_pos hcond]
          dsimp only
          obtain ⟨h1, h2⟩ := Bool.and_eq_true_iff.mp hcond
          exact Or.inr ⟨ia, of_decide_eq_true h2, rfl⟩
        · rw [if_neg hcond]
          dsimp only
          rw [if_neg hlen, if_neg (by decide : ¬ ((!true : Bool) = true))]
          exact Or.inl rfl
      | none =>
        dsimp only
        rw [if_neg hlen, if_neg (by decide : ¬ ((!true : Bool) = true))]
        exact Or.inl rfl

theorem buildLoop_distinct (title src : Str) (ca ce : List Str) (fb : Bool)
    (hlen : ca.length ≠ 1) :
    ∀ (emails pool : List Str) (st : List Rec × List Str),
      pool.Nodup →
      (st.1.map Rec.author).Nodup →
      (∀ x ∈ st.1.map Rec.author, x ∉ pool) →
      ((buildLoop title src ca ce fb true emails pool st).1.map
        Rec.author).Nodup := by
  intro emails
  induction emails with
  | nil =>
    intro pool st hp hr hd
    exact hr
  | cons e rest ih =>
    intro pool st hp hr hd
    rw [buildLoop]
    rcases buildStep_strict_cases ca ce fb e pool hlen with hnone | ⟨a, ha, hsome⟩
    · rw [hnone]
      exact ih pool st hp hr hd
    · rw [hsome]
      dsimp only
      rw [pushUnique]
      by_cases hk : recKey title a e ∈ st.2
      · rw [if_pos hk]
        refine ih (pool.erase a) st (hp.erase a) hr ?_
        intro x hx hxe
        exact hd x hx (List.mem_of_mem_erase hxe)
      · rw [if_neg hk]
        refine ih (pool.erase a) (st.1 ++ [⟨title, a, e, src⟩], recKey title a e :: st.2)
          (hp.erase a) ?_ ?_
        · dsimp only
          rw [List.map_append]
          rw [List.nodup_append]
          refine ⟨hr, List.nodup_singleton _, ?_⟩
          intro x hx hx2
          simp only [List.map_cons, List.map_nil, List.mem_singleton] at hx2
          subst hx2
          exact hd x hx ha
        · dsimp only
          intro x hx hxe
          rw [List.map_append] at hx
          rcases List.mem_append.mp hx with hx1 | hx2
          · exact hd x hx1 (List.mem_of_mem_erase hxe)
          · simp only [List.map_cons, List.map_nil, List.mem_singleton] at hx2
            subst hx2
            exact (List.Nodup.mem_erase_iff hp).mp hxe |>.1 rfl

theorem buildRecords_strict_distinct (title : Str) (authors emails : List Str)
    (src : Str) (keys : List Str)
    (hlen : (dedupeList ((authors.map formatAuthorName).filter
      (fun a => !a.isEmpty))).length ≠ 1) :
    (((buildRecords title authors emails src keys true).1).map
      Rec.author).Nodup := by
  rw [buildRecords]
  split
  · exact List.nodup_nil
  · refine buildLoop_distinct _ _ _ _ _ hlen _ _ ([], keys)
      (dedupeList_nodup _) List.nodup_nil ?_
    intro x hx
    cases hx

set_option maxRecDepth 4000 in
/-- C6, counterexample: one MEDLINE record with two authors and two extracted
candidate emails; the per-record assignment of the tagged-path parser keeps no
unassigned-author pool, so the same author claims both emails within the one
assignment pass over the record's emails. -/
theorem one_email_per_author_cex :
    (parseMedline poolCexInput).records =
      [⟨("Paper T").toList, ("John Smith").toList, ("smith@x.com").toList,
        ("PubMed").toList⟩,
       ⟨("Paper T").toList, ("John Smith").toList, ("smith@y.com").toList,
        ("PubMed").toList⟩] := by decide

/-- C6 (amended): the pool mechanism lives in the free-text buildRecords path,
not in the tagged-path per-record assignment.  There, the selected author is a
highest-scoring pool member with positive score, the selection step removes
the chosen author from the pool, and under strict matching with the
single-author default inapplicable every author claims at most one email: the
emitted record authors are pairwise distinct.  The tagged MEDLINE path scores
every author of the record for every email with no pool (counterexample). -/
theorem one_email_per_author_amended :
    (∀ (email : Str) (authors pool : List Str) (a : Str),
        findAuthorMatch email authors (some pool) = some a →
        a ∈ pool ∧ 0 < scoreAuthorEmailMatch email a [] ∧
          ∀ b ∈ authors, b ∈ pool →
            scoreAuthorEmailMatch email b [] ≤
              scoreAuthorEmailMatch email a []) ∧
    (∀ (ca ce : List Str) (fb strict : Bool) (email : Str) (pool : List Str)
        (a : Str),
        findAuthorMatch email ca (some pool) = some a →
        buildStep ca ce fb strict email pool = (some a, pool.erase a)) ∧
    (∀ (title : Str) (authors emails : List Str) (src : Str) (keys : List Str),
        (dedupeList ((authors.map formatAuthorName).filter
          (fun a => !a.isEmpty))).length ≠ 1 →
        (((buildRecords title authors emails src keys true).1).map
          Rec.author).Nodup) :=
  ⟨fun _ _ _ _ h => findAuthorMatch_spec h,
   fun _ _ _ _ _ _ _ h => buildStep_matched h,
   fun title authors emails src keys hlen =>
     buildRecords_strict_distinct title authors emails src keys hlen⟩

/-- Witness for C6 (amended): the three clauses at concrete data, the
match-success and author-count hypotheses discharged there. -/
theorem one_email_per_author_amended_witness :
    (("Jane Doe".toList) ∈ [("Jane Doe".toList)] ∧
      0 < scoreAuthorEmailMatch ("jane@x.com".toList) ("Jane Doe".toList) [] ∧
      ∀ b ∈ [("Jane Doe".toList)], b ∈ [("Jane Doe".toList)] →
        scoreAuthorEmailMatch ("jane@x.com".toList) b [] ≤
          scoreAuthorEmailMatch ("jane@x.com".toList) ("Jane Doe".toList) []) ∧
    buildStep [("Jane Doe".toList)] [] false true ("jane@x.com".toList)
        [("Jane Doe".toList)] =
      (some ("Jane Doe".toList), [("Jane Doe".toList)].erase ("Jane Doe".toList)) ∧
    (((buildRecords ("T".toList) [("Jane Doe".toList), ("John Roe".toList)]
        [("jane@x.com".toList)] ("S".toList) [] true).1).map Rec.author).Nodup :=
  ⟨one_email_per_author_amended.1 ("jane@x.com".toList) [("Jane Doe".toList)]
      [("Jane Doe".toList)] ("Jane Doe".toList) (by decide),
   one_email_per_author_amended.2.1 [("Jane Doe".toList)] [] false true
      ("jane@x.com".toList) [("Jane Doe".toList)] ("Jane Doe".toList)
      (by decide),
   one_email_per_author_amended.2.2 ("T".toList)
      [("Jane Doe".toList), ("John Roe".toList)] [("jane@x.com".toList)]
      ("S".toList) [] (by decide)⟩

theorem mem_dedupeAux_sub {x : Str} (l : List Str) :
    ∀ seen : List Str, x ∈ dedupeAux seen l → x ∈ l := by
  induction l with
  | nil => intro seen hx; cases hx
  | cons y ys ih =>
    intro seen hx
    rw [dedupeAux] at hx
    by_cases hy : y ∈ seen
    · rw [if_pos hy] at hx
      exact List.mem_cons_of_mem _ (ih seen hx)
    · rw [if_neg hy] at hx
      rcases List.mem_cons.mp hx with rfl | hx2
      · exact List.mem_cons_self _ _
      · exact List.mem_cons_of_mem _ (ih (y :: seen) hx2)

theorem mem_dedupeList_sub {x : Str} {l : List Str} (h : x ∈ dedupeList l) :
    x ∈ l :=
  mem_dedupeAux_sub l [] h

theorem enumFrom_snd_mem {α : Type} {q : Nat × α} (l : List α) :
    ∀ n : Nat, q ∈ l.enumFrom n → q.2 ∈ l := by
  induction l with
  | nil => intro n hq; cases hq
  | cons x xs ih =>
    intro n hq
    rcases List.mem_cons.mp hq with rfl | hq2
    · exact List.mem_cons_self _ _
    · exact List.mem_cons_of_mem _ (ih (n + 1) hq2)

theorem prepareAuthor_emails_lc {a : MAuthor} {pa : PAuthor}
    (h : prepareAuthor a = some pa) :
    ∀ e ∈ pa.candidateEmails, lowerStr e = e := by
  rw [prepareAuthor] at h
  by_cases hf : (formatAuthorName a.name).isEmpty = true
  · rw [if_pos hf] at h
    exact absurd h (by simp)
  · rw [if_neg hf] at h
    dsimp only at h
    injection h with h
    subst h
    intro e he
    dsimp only at he
    have h1 := mem_dedupeList_sub he
    have h2 := (List.mem_filter.mp h1).1
    have h3 := (List.mem_filter.mp h2).1
    obtain ⟨e0, _, he0⟩ := List.mem_map.mp h3
    rw [← he0]
    exact lowerStr_idem _

theorem addOwner_keys_mem {em : Str} {ow : List Nat} (email : Str) (idx : Nat) :
    ∀ m : List (Str × List Nat), (em, ow) ∈ addOwner email idx m →
      em = email ∨ ∃ ow2, (em, ow2) ∈ m := by
  intro m
  induction m with
  | nil =>
    intro hm
    rw [addOwner] at hm
    rcases List.mem_singleton.mp hm with h
    exact Or.inl (congrArg Prod.fst h)
  | cons p rest ih =>
    obtain ⟨e, owners⟩ := p
    intro hm
    rw [addOwner] at hm
    by_cases he : e = email
    · rw [if_pos he] at hm
      rcases List.mem_cons.mp hm with h | h2
      · exact Or.inl ((congrArg Prod.fst h).trans he)
      · exact Or.inr ⟨ow, List.mem_cons_of_mem _ h2⟩
    · rw [if_neg he] at hm
      rcases List.mem_cons.mp hm with h | h2
      · refine Or.inr ⟨owners, ?_⟩
        have hem : em = e := congrArg Prod.fst h
        rw [hem]
        exact List.mem_cons_self _ _
      · rcases ih h2 with h3 | ⟨ow2, h4⟩
        · exact Or.inl h3
        · exact Or.inr ⟨ow2, List.mem_cons_of_mem _ h4⟩

theorem pushUnique_mem {t a e s : Str} {st : List Rec × List Str} {r : Rec}
    (h : r ∈ (pushUnique t a e s st).1) : r ∈ st.1 ∨ r = ⟨t, a, e, s⟩ := by
  rw [pushUnique] at h
  by_cases hk : recKey t a e ∈ st.2
  · rw [if_pos hk] at h
    exact Or.inl h
  · rw [if_neg hk] at h
    dsimp only at h
    rcases List.mem_append.mp h with h1 | h2
    · exact Or.inl h1
    · exact Or.inr (List.mem_singleton.mp h2)

theorem ownerInner_mem {em : Str} (i : Nat) :
    ∀ (E : List Str) (acc : List (Str × List Nat)) (ow : List Nat),
      (em, ow) ∈ E.foldl (fun acc2 email => addOwner email i acc2) acc →
      (∃ ow2, (em, ow2) ∈ acc) ∨ em ∈ E := by
  intro E
  induction E with
  | nil =>
    intro acc ow h
    exact Or.inl ⟨ow, h⟩
  | cons e es ih =>
    intro acc ow h
    rw [List.foldl_cons] at h
    rcases ih (addOwner e i acc) ow h with ⟨ow2, h2⟩ | h3
    · rcases addOwner_keys_mem e i acc h2 with h4 | ⟨ow3, h5⟩
      · rw [h4]
        exact Or.inr (List.mem_cons_self _ _)
      · exact Or.inl ⟨ow3, h5⟩
    · exact Or.inr (List.mem_cons_of_mem _ h3)

theorem buildOwnerMap_keys {em : Str} {ow : List Nat} {pas : List PAuthor}
    (h : (em, ow) ∈ buildOwnerMap pas) :
    ∃ pa ∈ pas, em ∈ pa.candidateEmails := by
  rw [buildOwnerMap] at h
  suffices h2 : ∀ (l : List (Nat × PAuthor)) (acc : List (Str × List Nat))
      (ow : List Nat),
      (em, ow) ∈ l.foldl
        (fun acc p =>
          p.2.candidateEmails.foldl (fun acc2 email => addOwner email p.1 acc2)
            acc) acc →
      (∃ ow2, (em, ow2) ∈ acc) ∨ ∃ q ∈ l, em ∈ q.2.candidateEmails by
    rcases h2 pas.enum [] ow h with ⟨ow2, hmem⟩ | ⟨q, hq, hqe⟩
    · cases hmem
    · exact ⟨q.2, enumFrom_snd_mem pas 0 hq, hqe⟩
  intro l
  induction l with
  | nil =>
    intro acc ow2 hm
    exact Or.inl ⟨ow2, hm⟩
  | cons p ps ih =>
    intro acc ow2 hm
    rw [List.foldl_cons] at hm
    rcases ih _ ow2 hm with ⟨ow3, h3⟩ | ⟨q, hq, hqe⟩
    · rcases ownerInner_mem p.1 p.2.candidateEmails acc ow3 h3 with
        ⟨ow4, h4⟩ | h5
      · exact Or.inl ⟨ow4, h4⟩
      · exact Or.inr ⟨p, List.mem_cons_self _ _, h5⟩
    · exact Or.inr ⟨q, List.mem_cons_of_mem _ hq, hqe⟩

theorem emitAssigned_lc (title : Str) (pas : List PAuthor) :
    ∀ (m : List (Str × List Nat)) (st : List Rec × List Str),
      (∀ em ow, (em, ow) ∈ m → lowerStr em = em) →
      (∀ r ∈ st.1, lowerStr r.email = r.email) →
      ∀ r ∈ (emitAssigned title pas m st).1, lowerStr r.email = r.email := by
  intro m
  induction m with
  | nil =>
    intro st hm hst r hr
    exact hst r hr
  | cons p rest ih =>
    obtain ⟨email, owners⟩ := p
    intro st hm hst r hr
    rw [emitAssigned] at hr
    cases hassign : assignEmailToAuthor pas email owners with
    | none =>
      rw [hassign] at hr
      dsimp only at hr
      exact ih st (fun em ow h2 => hm em ow (List.mem_cons_of_mem _ h2)) hst
        r hr
    | some an =>
      rw [hassign] at hr
      dsimp only at hr
      refine ih _ (fun em ow h2 => hm em ow (List.mem_cons_of_mem _ h2)) ?_
        r hr
      intro r2 hr2
      rcases pushUnique_mem hr2 with h1 | h2
      · exact hst r2 h1
      · rw [h2]
        exact hm email owners (List.mem_cons_self _ _)

theorem flushMedline_lc {st : MState}
    (h : ∀ r ∈ st.rows, lowerStr r.email = r.email) :
    ∀ r ∈ (flushMedline st).rows, lowerStr r.email = r.email := by
  rw [flushMedline]
  split
  · exact h
  · dsimp only
    split
    · exact h
    · split
      · exact h
      · intro r hr
        refine emitAssigned_lc _ _ _ _ ?_ h r hr
        intro em ow hm
        obtain ⟨pa, hpa, hpe⟩ := buildOwnerMap_keys hm
        obtain ⟨a0, _, hprep⟩ := List.mem_filterMap.mp hpa
        exact prepareAuthor_emails_lc hprep em hpe

theorem medlineTagStep_lc {st : MState} {line : Str}
    (h : ∀ r ∈ st.rows, lowerStr r.email = r.email) :
    ∀ r ∈ (medlineTagStep st line).rows, lowerStr r.email = r.email := by
  unfold medlineTagStep
  dsimp only
  split
  · split
    · set st2 := (if !(st.titleParts.isEmpty && st.authors.isEmpty) then
          flushMedline st else st) with hst2
      have h2 : ∀ r ∈ st2.rows, lowerStr r.email = r.email := by
        rw [hst2]
        split
        · exact flushMedline_lc h
        · exact h
      exact h2
    · split
      · exact h
      · split
        · split <;> exact h
        · split
          · split <;> exact h
          · exact h
  · split
    · split <;> first | exact h | (split <;> exact h)
    · split <;> exact h

theorem medlineLine_lc {st : MState} {line : Str}
    (h : ∀ r ∈ st.rows, lowerStr r.email = r.email) :
    ∀ r ∈ (medlineLine st line).rows, lowerStr r.email = r.email := by
  rw [medlineLine]
  split
  · exact medlineTagStep_lc (flushMedline_lc h)
  · exact medlineTagStep_lc h

theorem parseMedline_email_lc (input : Str) :
    ∀ r ∈ (parseMedline input).records, lowerStr r.email = r.email := by
  have h1 : ∀ r ∈ ((toLines input).foldl medlineLine mstate0).rows,
      lowerStr r.email = r.email :=
    foldl_pres
      (P := fun (st : MState) => ∀ r ∈ st.rows, lowerStr r.email = r.email)
      (fun st line hs => medlineLine_lc hs) _ _ (by intro r hr; cases hr)
  exact flushMedline_lc h1

theorem foldl_mem_cases {α : Type}
    (f : (List Rec × List Str) → α → List Rec × List Str)
    (P : α → Rec → Prop)
    (hf : ∀ st x r, r ∈ (f st x).1 → r ∈ st.1 ∨ P x r) :
    ∀ (l : List α) (st : List Rec × List Str) (r : Rec),
      r ∈ (l.foldl f st).1 → r ∈ st.1 ∨ ∃ x ∈ l, P x r := by
  intro l
  induction l with
  | nil =>
    intro st r h
    exact Or.inl h
  | cons x xs ih =>
    intro st r h
    rw [List.foldl_cons] at h
    rcases ih (f st x) r h with h1 | ⟨y, hy, hP⟩
    · rcases hf st x r h1 with h2 | hP2
      · exact Or.inl h2
      · exact Or.inr ⟨x, List.mem_cons_self _ _, hP2⟩
    · exact Or.inr ⟨y, List.mem_cons_of_mem _ hy, hP⟩

theorem buildLoop_email_mem (title src : Str) (ca ce : List Str)
    (fb strict : Bool) (Q : Str → Prop) :
    ∀ (E pool : List Str) (st : List Rec × List Str),
      (∀ r ∈ st.1, Q r.email) → (∀ e ∈ E, Q e) →
      ∀ r ∈ (buildLoop title src ca ce fb strict E pool st).1, Q r.email := by
  intro E
  induction E with
  | nil =>
    intro pool st hst hE r hr
    exact hst r hr
  | cons e rest ih =>
    intro pool st hst hE r hr
    rw [buildLoop] at hr
    cases hs : (buildStep ca ce fb strict e pool).1 with
    | none =>
      rw [hs] at hr
      dsimp only at hr
      exact ih _ _ hst (fun x hx => hE x (List.mem_cons_of_mem _ hx)) r hr
    | some a =>
      rw [hs] at hr
      dsimp only at hr
      refine ih _ _ ?_ (fun x hx => hE x (List.mem_cons_of_mem _ hx)) r hr
      intro r2 hr2
      rcases pushUnique_mem hr2 with h1 | h2
      · exact hst r2 h1
      · rw [h2]
        exact hE e (List.mem_cons_self _ _)

theorem buildRecords_email_prov (title : Str) (authors emails : List Str)
    (src : Str) (keys : List Str) (strict : Bool) :
    ∀ r ∈ (buildRecords title authors emails src keys strict).1,
      ∃ e ∈ emails, r.email = trimList e ∧
        isNonAuthorContactEmail (trimList e) = false ∧
        (trimList e).isEmpty = false := by
  rw [buildRecords]
  split
  · intro r hr
    cases hr
  · refine buildLoop_email_mem _ _ _ _ _ _
      (fun v => ∃ e ∈ emails, v = trimList e ∧
        isNonAuthorContactEmail (trimList e) = false ∧
        (trimList e).isEmpty = false) _ _ ([], keys) ?_ ?_
    · intro r hr
      cases hr
    · intro e he
      have h1 := mem_dedupeList_sub he
      obtain ⟨h2, hp2⟩ := List.mem_filter.mp h1
      obtain ⟨h3, hp1⟩ := List.mem_filter.mp h2
      obtain ⟨e0, he0, hee⟩ := List.mem_map.mp h3
      subst hee
      refine ⟨e0, he0, rfl, ?_, ?_⟩
      · simpa using hp2
      · simpa using hp1

theorem splitEmailsMdpi_prov {v e : Str} (h : e ∈ splitEmailsMdpi v) :
    ∃ m ∈ extractEmails v, e = trimList m ∧ e.isEmpty = false := by
  have h1 := mem_dedupeList_sub h
  obtain ⟨h2, hp⟩ := List.mem_filter.mp h1
  obtain ⟨m, hm, hme⟩ := List.mem_map.mp h2
  refine ⟨m, hm, hme.symm, ?_⟩
  simpa using hp

theorem epmcEmitAuthor_email_mem {title : Str} {a : XNode}
    {st : List Rec × List Str} {r : Rec}
    (h : r ∈ (epmcEmitAuthor title a st).1) :
    r ∈ st.1 ∨ ∃ aff ∈ (epmcAuthorInfo a).affiliations,
      r.email ∈ extractEmails aff := by
  rw [epmcEmitAuthor] at h
  cases hfn : (epmcAuthorInfo a).firstName with
  | none =>
    rw [hfn] at h
    dsimp only at h
    exact Or.inl h
  | some fn =>
    rw [hfn] at h
    cases hln : (epmcAuthorInfo a).lastName with
    | none =>
      rw [hln] at h
      dsimp only at h
      exact Or.inl h
    | some ln =>
      rw [hln] at h
      dsimp only at h
      by_cases haff : (epmcAuthorInfo a).affiliations.isEmpty = true
      · rw [if_pos haff] at h
        exact Or.inl h
      · rw [if_neg haff] at h
        have hfInner : ∀ (st3 : List Rec × List Str) (em2 : Str) (r3 : Rec),
            r3 ∈ (pushUnique title (fn ++ ' ' :: ln) em2
              ("Europe PMC".toList) st3).1 →
            r3 ∈ st3.1 ∨ Rec.email r3 = em2 := by
          intro st3 em2 r3 h4
          rcases pushUnique_mem h4 with h5 | h6
          · exact Or.inl h5
          · rw [h6]
            exact Or.inr rfl
        have hfOuter : ∀ (st2 : List Rec × List Str) (aff : Str) (r2 : Rec),
            r2 ∈ ((extractEmails aff).foldl
              (fun st3 email => pushUnique title (fn ++ ' ' :: ln) email
                ("Europe PMC".toList) st3) st2).1 →
            r2 ∈ st2.1 ∨ Rec.email r2 ∈ extractEmails aff := by
          intro st2 aff r2 h2
          rcases foldl_mem_cases _
            (fun email r3 => Rec.email r3 = email) hfInner _ _ _ h2 with
            h3 | ⟨em, hem, hP3⟩
          · exact Or.inl h3
          · refine Or.inr ?_
            rw [hP3]
            exact hem
        rcases foldl_mem_cases _
          (fun aff r2 => Rec.email r2 ∈ extractEmails aff) hfOuter _ _ _ h with
          h1 | ⟨aff, haff2, hP⟩
        · exact Or.inl h1
        · exact Or.inr ⟨aff, haff2, hP⟩

set_option maxRecDepth 4000 in
/-- C7, counterexample: the source text of this record carries its one email
only in mixed case, as JSmith@Uni.edu, and nowhere in lowercase; the
tagged-path output record carries the case-folded jsmith@uni.edu, so the
original letter-case of the email as found is NOT preserved. -/
theorem email_case_cex :
    (parseMedline caseCexInput).records =
      [⟨("Paper T").toList, ("John Smith").toList,
        ("jsmith@uni.edu").toList, ("PubMed").toList⟩] ∧
    containsSub caseCexInput (("JSmith@Uni.edu").toList) = true ∧
    containsSub caseCexInput (("jsmith@uni.edu").toList) = false :=
  ⟨by decide, by decide, by decide⟩

/-- C7 (amended): output emails are trimmed and exclusion-filtered forms of
emails found in the source, but letter-case is preserved only outside the
tagged MEDLINE path: every record email of parseMedline is case-folded to
lowercase, while the free-text buildRecords path emits exactly trimmed,
exclusion-filtered source emails with case untouched, the tab-delimited
path's email cells yield trimmed regex-extracted emails, and the XML path
emits regex-extracted affiliation emails verbatim. -/
theorem email_case_amended :
    (∀ input : Str, ∀ r ∈ (parseMedline input).records,
        lowerStr r.email = r.email) ∧
    (∀ (title : Str) (authors emails : List Str) (src : Str)
        (keys : List Str) (strict : Bool),
        ∀ r ∈ (buildRecords title authors emails src keys strict).1,
          ∃ e ∈ emails, r.email = trimList e ∧
            isNonAuthorContactEmail (trimList e) = false ∧
            (trimList e).isEmpty = false) ∧
    (∀ v e : Str, e ∈ splitEmailsMdpi v →
        ∃ m ∈ extractEmails v, e = trimList m ∧ e.isEmpty = false) ∧
    (∀ (title : Str) (a : XNode) (st : List Rec × List Str) (r : Rec),
        r ∈ (epmcEmitAuthor title a st).1 →
        r ∈ st.1 ∨ ∃ aff ∈ (epmcAuthorInfo a).affiliations,
          r.email ∈ extractEmails aff) :=
  ⟨parseMedline_email_lc,
   buildRecords_email_prov,
   fun _ _ h => splitEmailsMdpi_prov h,
   fun _ _ _ _ h => epmcEmitAuthor_email_mem h⟩

/-- Witness for C7 (amended): all four clauses at concrete data, the record
and email membership hypotheses discharged there. -/
theorem email_case_amended_witness :
    lowerStr (("jsmith@uni.edu").toList) = ("jsmith@uni.edu").toList ∧
    (∃ e ∈ [(" Jane@X.com ".toList)],
      ("Jane@X.com").toList = trimList e ∧
        isNonAuthorContactEmail (trimList e) = false ∧
        (trimList e).isEmpty = false) ∧
    (∃ m ∈ extractEmails ("x a@b.cc".toList),
      ("a@b.cc").toList = trimList m ∧
        (("a@b.cc").toList).isEmpty = false) ∧
    ((⟨("T").toList, ("Ann Bee").toList, ("a@b.cc").toList,
        ("Europe PMC").toList⟩ : Rec) ∈
        (([], []) : List Rec × List Str).1 ∨
      ∃ aff ∈ (epmcAuthorInfo (xelem ("author".toList)
          [xelem ("firstname".toList) [xtxt ("Ann".toList)],
           xelem ("lastname".toList) [xtxt ("Bee".toList)],
           xelem ("affiliation".toList)
             [xtxt ("Dept, a@b.cc".toList)]])).affiliations,
        (("a@b.cc").toList : Str) ∈ extractEmails aff) := by
  refine ⟨?_, ?_, ?_, ?_⟩
  · exact email_case_amended.1 caseCexInput
      ⟨("Paper T").toList, ("John Smith").toList,
        ("jsmith@uni.edu").toList, ("PubMed").toList⟩ (by decide)
  · exact email_case_amended.2.1 ("T".toList) [("Jane Doe".toList)]
      [(" Jane@X.com ".toList)] ("S".toList) [] false
      ⟨("T").toList, ("Jane Doe").toList, ("Jane@X.com").toList,
        ("S").toList⟩ (by decide)
  · exact email_case_amended.2.2.1 ("x a@b.cc".toList) ("a@b.cc".toList)
      (by decide)
  · exact email_case_amended.2.2.2 ("T".toList)
      (xelem ("author".toList)
        [xelem ("firstname".toList) [xtxt ("Ann".toList)],
         xelem ("lastname".toList) [xtxt ("Bee".toList)],
         xelem ("affiliation".toList) [xtxt ("Dept, a@b.cc".toList)]])
      ([], [])
      ⟨("T").toList, ("Ann Bee").toList, ("a@b.cc").toList,
        ("Europe PMC").toList⟩ (by decide)

end BioParse
